import Mathlib

/-!
Verification of bup's garbage collector (`cmd/bloom-gc-cmd.py`) and virtual
file system (`lib/bup/vfs.py`), shallowly embedded in Lean.

Bytes are modelled as `Nat`, byte strings as `List Nat`, hashes as opaque
values.  Python's clamped negative handling is mirrored by `Nat` subtraction
or explicit `Int` arguments where the source can receive negatives.
-/

namespace BupVfs

/-- A chunked file's split tree as decoded by `_tree_decode` in vfs.py: a leaf
blob, or a tree whose entries are `(offset, child)` pairs sorted by offset,
offsets being relative to the start of the subtree (the recursive calls in
`_last_chunk_info` and `_chunkiter` pass `ofs+subofs` resp. `startofs-ofs`).
The hash indirection of the object store is replaced by direct subterms. -/
inductive Chunk where
  | blob : List Nat → Chunk
  | tree : List (Nat × Chunk) → Chunk

mutual

/-- The logical content of a chunk: concatenation of leaf blobs in offset
order (`read_all` in the spec's words; `''.join(cp().join(hash))` for leaves). -/
def content : Chunk → List Nat
  | .blob d => d
  | .tree es => contentList es

/-- Content of a list of split-tree entries, in order. -/
def contentList : List (Nat × Chunk) → List Nat
  | [] => []
  | (_, c) :: rest => content c ++ contentList rest

end

mutual

/-- Well-formedness of a split tree: trees are nonempty (`assert(tree)` in
`_last_chunk_info`), entries are strictly ordered with each entry's offset
equal to the total length of the preceding entries' content (the hashsplit
invariant: first entry at 0, concatenation of leaves reconstructs the file). -/
def chunkWF : Chunk → Bool
  | .blob _ => true
  | .tree es => !es.isEmpty && entriesWF 0 es

/-- Entries well-formed with running base offset `base`. -/
def entriesWF : Nat → List (Nat × Chunk) → Bool
  | _, [] => true
  | base, (ofs, c) :: rest =>
      ofs == base && chunkWF c && entriesWF (base + (content c).length) rest

end

/-- `_chunk_len`: total byte length of an object's joined blobs. -/
def chunkLen (c : Chunk) : Nat := (content c).length

/-- The entries of a tree chunk (`_tree_decode`); `[]` for a blob, where the
source would fail an assertion. -/
def treeEntries : Chunk → List (Nat × Chunk)
  | .tree es => es
  | .blob _ => []

/-- `_last_chunk_info`: follow the rightmost path, summing offsets, down to a
blob leaf; returns `(ofs, len)` of the last chunk.  `([], _)` is unreachable
under `chunkWF` (the source asserts the tree is nonempty). -/
def lastChunkInfo : List (Nat × Chunk) → Nat × Nat
  | [] => (0, 0)
  | [(ofs, .blob d)] => (ofs, d.length)
  | [(ofs, .tree es)] =>
      let p := lastChunkInfo es
      (ofs + p.1, p.2)
  | _ :: e :: rest => lastChunkInfo (e :: rest)

/-- `_total_size`: `lastofs + lastsize`. -/
def totalSize (es : List (Nat × Chunk)) : Nat :=
  (lastChunkInfo es).1 + (lastChunkInfo es).2

/-- The index `first` computed by the skip loop at the top of `_chunkiter`:
the loop breaks at the first `i` with `i+1 >= len(tree)` or
`tree[i+1][0] > startofs`, and `first` is that `i`. -/
def scanFirst : List (Nat × Chunk) → Nat → Nat
  | [], _ => 0
  | [_], _ => 0
  | _ :: b :: rest, so => if b.1 > so then 0 else scanFirst (b :: rest) so + 1

/-- The yield loop of `_chunkiter`, iterating entries from index `skip`
(`for i in xrange(first, len(tree))`): each entry is sliced by
`skipmore = startofs - ofs` clamped at 0 (`Nat` subtraction), a directory
entry recursing as `_chunkiter(sha, skipmore)`. -/
def chunkiterAll : List (Nat × Chunk) → Nat → Nat → List (List Nat)
  | [], _, _ => []
  | _ :: rest, skip + 1, so => chunkiterAll rest skip so
  | (ofs, c) :: rest, 0, so =>
      (match c with
       | .blob d => [d.drop (so - ofs)]
       | .tree es => chunkiterAll es (scanFirst es (so - ofs)) (so - ofs))
      ++ chunkiterAll rest 0 so
termination_by es _ _ => sizeOf es
decreasing_by
  all_goals simp_wf <;> omega

/-- `_chunkiter(hash, startofs)` on a decoded tree: skip to `first`, then
yield the remaining entries' blobs. -/
def chunkiter (es : List (Nat × Chunk)) (so : Nat) : List (List Nat) :=
  chunkiterAll es (scanFirst es so) so

example : chunkiter [(0, .blob [1,2]), (2, .blob [3,4,5])] 1 = [[2], [3,4,5]] := by
  simp [chunkiter, chunkiterAll, scanFirst]

example : chunkiter [(0, .blob [1,2]), (2, .tree [(0, .blob [3]), (1, .blob [4,5])])] 3
    = [[4,5]] := by
  simp [chunkiter, chunkiterAll, scanFirst]

example : totalSize [(0, .blob [1,2]), (2, .tree [(0, .blob [3]), (1, .blob [4,5])])] = 5 := by
  simp [totalSize, lastChunkInfo]

example : chunkWF (.tree [(0, .blob [1,2]), (2, .tree [(0, .blob [3]), (1, .blob [4,5])])]) = true := by
  simp [chunkWF, entriesWF, content, contentList]

theorem contentList_nil : contentList [] = [] := by rw [contentList]

theorem contentList_cons (ofs : Nat) (c : Chunk) (rest : List (Nat × Chunk)) :
    contentList ((ofs, c) :: rest) = content c ++ contentList rest := by
  rw [contentList]

theorem content_blob (d : List Nat) : content (.blob d) = d := by rw [content]

theorem content_tree (es : List (Nat × Chunk)) : content (.tree es) = contentList es := by
  rw [content]

theorem entriesWF_cons {base ofs : Nat} {c : Chunk} {rest : List (Nat × Chunk)} :
    entriesWF base ((ofs, c) :: rest) = true ↔
      ofs = base ∧ chunkWF c = true ∧
        entriesWF (base + (content c).length) rest = true := by
  rw [entriesWF]
  simp [Bool.and_assoc]

theorem chunkWF_tree {es : List (Nat × Chunk)} :
    chunkWF (.tree es) = true ↔ es ≠ [] ∧ entriesWF 0 es = true := by
  rw [chunkWF]
  cases es <;> simp

theorem chunkiterAll_nil (skip so : Nat) : chunkiterAll [] skip so = [] := by
  rw [chunkiterAll]

theorem chunkiterAll_skip (e : Nat × Chunk) (rest : List (Nat × Chunk)) (k so : Nat) :
    chunkiterAll (e :: rest) (k + 1) so = chunkiterAll rest k so := by
  rw [chunkiterAll.eq_def]

theorem chunkiterAll_cons_zero (ofs : Nat) (c : Chunk) (rest : List (Nat × Chunk)) (so : Nat) :
    chunkiterAll ((ofs, c) :: rest) 0 so =
      (match c with
       | .blob d => [d.drop (so - ofs)]
       | .tree es => chunkiterAll es (scanFirst es (so - ofs)) (so - ofs))
      ++ chunkiterAll rest 0 so := by
  rw [chunkiterAll.eq_def]

theorem scanFirst_cons_cons (e1 e2 : Nat × Chunk) (rest : List (Nat × Chunk)) (so : Nat) :
    scanFirst (e1 :: e2 :: rest) so =
      if e2.1 > so then 0 else scanFirst (e2 :: rest) so + 1 := by
  rw [scanFirst]

/-- Correctness of `_chunkiter`'s skip scan and yield loop, by strong induction
on the size of the entry list: under the split-tree invariant with entries
based at `b`, the yields starting at `so` concatenate to the subtree content
from relative position `so - b` on.  The first conjunct is the plain yield
loop (skip 0), the second includes the skip scan. -/
theorem chunkiterAll_flatten_aux :
    ∀ n es, sizeOf es ≤ n → ∀ b so, entriesWF b es = true →
      (chunkiterAll es 0 so).flatten = (contentList es).drop (so - b) ∧
      (chunkiterAll es (scanFirst es so) so).flatten = (contentList es).drop (so - b) := by
  intro n
  induction n with
  | zero =>
    intro es hsz
    rcases es with _ | ⟨e, rest⟩ <;> simp at hsz
  | succ n ih =>
    intro es hsz b so hwf
    have hB : (chunkiterAll es 0 so).flatten = (contentList es).drop (so - b) := by
      rcases es with _ | ⟨⟨ofs, c⟩, rest⟩
      · rw [chunkiterAll_nil, contentList_nil]
        simp
      · rw [entriesWF_cons] at hwf
        obtain ⟨hofs, hcwf, hrest⟩ := hwf
        have hszr : sizeOf rest ≤ n := by simp at hsz; omega
        have tail := (ih rest hszr (b + (content c).length) so hrest).1
        have hhead : (match c with
             | .blob d => [d.drop (so - ofs)]
             | .tree es' => chunkiterAll es' (scanFirst es' (so - ofs)) (so - ofs)).flatten
            = (content c).drop (so - b) := by
          rcases c with d | es'
          · subst hofs
            rw [content_blob]
            simp
          · rw [chunkWF_tree] at hcwf
            have hsz' : sizeOf es' ≤ n := by simp at hsz; omega
            have h2 := (ih es' hsz' 0 (so - ofs) hcwf.2).2
            subst hofs
            rw [content_tree]
            simpa using h2
        rw [chunkiterAll_cons_zero, List.flatten_append, hhead, tail, contentList_cons,
            List.drop_append_eq_append_drop, Nat.sub_sub]
    refine ⟨hB, ?_⟩
    rcases es with _ | ⟨e1, es1⟩
    · rw [scanFirst]
      exact hB
    rcases es1 with _ | ⟨e2, rest⟩
    · rw [scanFirst]
      exact hB
    by_cases hgt : e2.1 > so
    · rw [scanFirst_cons_cons, if_pos hgt]
      exact hB
    obtain ⟨ofs1, c1⟩ := e1
    rw [entriesWF_cons] at hwf
    obtain ⟨hofs1, hcwf1, hrest⟩ := hwf
    have he2 : e2.1 = b + (content c1).length := by
      obtain ⟨ofs2, c2⟩ := e2
      rw [entriesWF_cons] at hrest
      exact hrest.1
    have hsz1 : sizeOf (e2 :: rest) ≤ n := by
      simp at hsz ⊢
      omega
    have htail := (ih (e2 :: rest) hsz1 (b + (content c1).length) so hrest).2
    calc (chunkiterAll ((ofs1, c1) :: e2 :: rest)
            (scanFirst ((ofs1, c1) :: e2 :: rest) so) so).flatten
        = (chunkiterAll (e2 :: rest) (scanFirst (e2 :: rest) so) so).flatten := by
          rw [scanFirst_cons_cons, if_neg hgt, chunkiterAll_skip]
      _ = (contentList (e2 :: rest)).drop (so - (b + (content c1).length)) := htail
      _ = (contentList ((ofs1, c1) :: e2 :: rest)).drop (so - b) := by
          conv_rhs => rw [contentList_cons, List.drop_append_eq_append_drop]
          rw [show (content c1).drop (so - b) = [] from
                List.drop_eq_nil_of_le (by omega),
              List.nil_append, Nat.sub_sub]

/-- `_chunkiter` on a well-formed split tree yields, in concatenation, the
tree's content from byte `so` on. -/
theorem chunkiter_flatten (es : List (Nat × Chunk)) (so : Nat)
    (h : entriesWF 0 es = true) :
    (chunkiter es so).flatten = (contentList es).drop so := by
  simpa using (chunkiterAll_flatten_aux (sizeOf es) es le_rfl 0 so h).2

/-- `_last_chunk_info` on well-formed entries based at `b`: the last chunk's
offset plus its length equals `b` plus the total content length. -/
theorem lastChunkInfo_eq :
    ∀ n es, sizeOf es ≤ n → ∀ b, entriesWF b es = true → es ≠ [] →
      (lastChunkInfo es).1 + (lastChunkInfo es).2 = b + (contentList es).length := by
  intro n
  induction n with
  | zero =>
    intro es hsz
    rcases es with _ | ⟨e, rest⟩ <;> simp at hsz
  | succ n ih =>
    intro es hsz b hwf hne
    rcases es with _ | ⟨⟨ofs, c⟩, rest⟩
    · exact absurd rfl hne
    rw [entriesWF_cons] at hwf
    obtain ⟨hofs, hcwf, hrest⟩ := hwf
    rcases rest with _ | ⟨e2, rest2⟩
    · rcases c with d | es'
      · subst hofs
        rw [lastChunkInfo, contentList_cons, contentList_nil, content_blob]
        simp
      · rw [chunkWF_tree] at hcwf
        have hsz' : sizeOf es' ≤ n := by simp at hsz; omega
        have h2 := ih es' hsz' 0 hcwf.2 hcwf.1
        subst hofs
        rw [lastChunkInfo, contentList_cons, contentList_nil, content_tree]
        simp only [List.append_nil]
        omega
    · have hsz1 : sizeOf (e2 :: rest2) ≤ n := by
        simp at hsz ⊢
        omega
      have h2 := ih (e2 :: rest2) hsz1 (b + (content c).length) hrest (by simp)
      rw [lastChunkInfo, contentList_cons, List.length_append]
      omega

/-- `_total_size` of a well-formed split tree equals its content length. -/
theorem totalSize_eq (es : List (Nat × Chunk))
    (h : entriesWF 0 es = true) (hne : es ≠ []) :
    totalSize es = (contentList es).length := by
  have := lastChunkInfo_eq (sizeOf es) es le_rfl 0 h hne
  simpa [totalSize] using this

/-- State of `_ChunkReader`: the current blob slice, the `_chunkiter`
generator as the list of its pending yields (`none` once `StopIteration` has
set `self.it = None`), and the stream offset `self.ofs`. -/
structure ChunkReader where
  blob : List Nat
  it : Option (List (List Nat))
  ofs : Nat

/-- `_ChunkReader.__init__(hash, isdir, startofs)`: for a directory (chunked
file) the iterator is `_chunkiter(hash, startofs)` and the blob is empty;
otherwise there is no iterator and the blob is the joined object content
sliced from `startofs`. -/
def ChunkReader.init (c : Chunk) (isdir : Bool) (startofs : Nat) : ChunkReader :=
  if isdir then
    { blob := [], it := some (chunkiter (treeEntries c) startofs), ofs := startofs }
  else
    { blob := (content c).drop startofs, it := none, ofs := startofs }

/-- The `while` loop of `_ChunkReader.next`, one recursive call per loop
iteration.  The four arms are: pull raising `StopIteration` (iterator becomes
`none`, then `break`); pull succeeding then slicing `want = size - len(out)`
bytes; no iterator (slice then `break`); nonempty blob with a live iterator
(slice, then re-check the loop condition).  Slicing an empty blob is a no-op,
as in the source where `if self.blob:` guards it. -/
def crNextGo (size : Nat) (out blob : List Nat) (it : Option (List (List Nat))) :
    List Nat × List Nat × Option (List (List Nat)) :=
  if _h : out.length < size then
    match it, blob with
    | some [], [] => (out, [], none)
    | some (x :: xs), [] =>
        let want := size - out.length
        let out2 := out ++ x.take want
        let blob2 := x.drop want
        if out2.length < size then crNextGo size out2 blob2 (some xs)
        else (out2, blob2, some xs)
    | none, blob =>
        let want := size - out.length
        (out ++ blob.take want, blob.drop want, none)
    | some l, hb :: tb =>
        let want := size - out.length
        let out2 := out ++ (hb :: tb).take want
        let blob2 := (hb :: tb).drop want
        if out2.length < size then crNextGo size out2 blob2 (some l)
        else (out2, blob2, some l)
  else (out, blob, it)
termination_by ((match it with | some xs => xs.length + 1 | none => 0), blob.length)

/-- `_ChunkReader.next(size)`: run the loop starting from `out = ''`, then
`self.ofs += len(out)` and return `out` with the updated reader. -/
def ChunkReader.next (cr : ChunkReader) (size : Nat) : List Nat × ChunkReader :=
  let r := crNextGo size [] cr.blob cr.it
  (r.1, { blob := r.2.1, it := r.2.2, ofs := cr.ofs + r.1.length })

/-- The bytes a finished-or-pending iterator still holds. -/
def itFlatten : Option (List (List Nat)) → List Nat
  | none => []
  | some xs => xs.flatten

/-- The bytes still pending in a `_ChunkReader`. -/
def crRem (cr : ChunkReader) : List Nat := cr.blob ++ itFlatten cr.it

/-- The loop of `_ChunkReader.next` returns exactly the first `size` pending
bytes (fewer if exhausted) and leaves exactly the remaining pending bytes,
proved along the loop's own recursion. -/
theorem crNextGo_spec (size : Nat) : ∀ (out blob : List Nat) (it : Option (List (List Nat))),
    (crNextGo size out blob it).1 = out ++ (blob ++ itFlatten it).take (size - out.length) ∧
    (crNextGo size out blob it).2.1 ++ itFlatten (crNextGo size out blob it).2.2
      = (blob ++ itFlatten it).drop (size - out.length) := by
  apply crNextGo.induct size (motive := fun out blob it =>
    (crNextGo size out blob it).1 = out ++ (blob ++ itFlatten it).take (size - out.length) ∧
    (crNextGo size out blob it).2.1 ++ itFlatten (crNextGo size out blob it).2.2
      = (blob ++ itFlatten it).drop (size - out.length))
  · -- pull hits StopIteration: iterator exhausted, blob empty
    intro out h
    have hstep : crNextGo size out [] (some []) = (out, [], none) := by
      rw [crNextGo.eq_def]
      simp [h]
    rw [hstep]
    simp [itFlatten]
  · -- pull succeeds, loop continues (pulled blob consumed entirely)
    intro out h x xs want out2 blob2 h2 ih
    have hw : want = size - out.length := rfl
    have ho2 : out2 = out ++ x.take want := rfl
    have hb2 : blob2 = x.drop want := rfl
    rw [ho2, hw] at h2
    rw [ho2, hb2, hw] at ih
    have hlen2 : (out ++ x.take (size - out.length)).length
        = out.length + min (size - out.length) x.length := by simp
    have hxw : x.length < size - out.length := by omega
    have hstep : crNextGo size out [] (some (x :: xs))
        = crNextGo size (out ++ x.take (size - out.length)) (x.drop (size - out.length))
            (some xs) := by
      rw [crNextGo.eq_def]
      simp only [dif_pos h]
      rw [if_pos h2]
    have htk : x.take (size - out.length) = x := List.take_of_length_le (by omega)
    have hdr : x.drop (size - out.length) = [] := List.drop_eq_nil_of_le (by omega)
    obtain ⟨ih1, ih2⟩ := ih
    rw [htk, hdr] at hstep ih1 ih2
    have hidx : size - (out ++ x).length = size - out.length - x.length := by
      simp only [List.length_append]
      omega
    constructor
    · rw [hstep, ih1, hidx]
      simp only [itFlatten, List.flatten_cons, List.nil_append, List.append_assoc]
      rw [List.take_append_eq_append_take, List.take_of_length_le (le_of_lt hxw)]
    · rw [hstep, ih2, hidx]
      simp only [itFlatten, List.flatten_cons, List.nil_append]
      rw [List.drop_append_eq_append_drop, List.drop_eq_nil_of_le (le_of_lt hxw),
        List.nil_append]
  · -- pull succeeds, loop stops (enough bytes)
    intro out h x xs want out2 h2
    have hw : want = size - out.length := rfl
    have ho2 : out2 = out ++ x.take want := rfl
    rw [ho2, hw] at h2
    have hlen2 : (out ++ x.take (size - out.length)).length
        = out.length + min (size - out.length) x.length := by simp
    have hwx : size - out.length ≤ x.length := by omega
    have h0 : size - out.length - x.length = 0 := by omega
    have hstep : crNextGo size out [] (some (x :: xs))
        = (out ++ x.take (size - out.length), x.drop (size - out.length), some xs) := by
      rw [crNextGo.eq_def]
      simp only [dif_pos h]
      rw [if_neg h2]
    rw [hstep]
    constructor
    · simp only [itFlatten, List.flatten_cons, List.nil_append]
      rw [List.take_append_eq_append_take, h0, List.take_zero, List.append_nil]
    · simp only [itFlatten, List.flatten_cons, List.nil_append]
      rw [List.drop_append_eq_append_drop, h0, List.drop_zero]
  · -- iterator already exhausted: slice the blob and break
    intro out h blob
    have hstep : crNextGo size out blob none
        = (out ++ blob.take (size - out.length), blob.drop (size - out.length), none) := by
      rw [crNextGo.eq_def]
      simp [h]
    rw [hstep]
    simp [itFlatten]
  · -- blob nonempty, iterator alive, loop continues
    intro out h l hb tb want out2 blob2 h2 ih
    have hw : want = size - out.length := rfl
    have ho2 : out2 = out ++ (hb :: tb).take want := rfl
    have hb2 : blob2 = (hb :: tb).drop want := rfl
    rw [ho2, hw] at h2
    rw [ho2, hb2, hw] at ih
    have hlen2 : (out ++ (hb :: tb).take (size - out.length)).length
        = out.length + min (size - out.length) (hb :: tb).length := by simp
    have hxw : (hb :: tb).length < size - out.length := by omega
    have hstep : crNextGo size out (hb :: tb) (some l)
        = crNextGo size (out ++ (hb :: tb).take (size - out.length))
            ((hb :: tb).drop (size - out.length)) (some l) := by
      rw [crNextGo.eq_def]
      simp only [dif_pos h]
      rw [if_pos h2]
    have htk : (hb :: tb).take (size - out.length) = hb :: tb :=
      List.take_of_length_le (by omega)
    have hdr : (hb :: tb).drop (size - out.length) = [] :=
      List.drop_eq_nil_of_le (by omega)
    obtain ⟨ih1, ih2⟩ := ih
    rw [htk, hdr] at hstep ih1 ih2
    have hidx : size - (out ++ hb :: tb).length
        = size - out.length - (hb :: tb).length := by
      simp only [List.length_append]
      omega
    constructor
    · rw [hstep, ih1, hidx]
      simp only [itFlatten, List.nil_append, List.append_assoc]
      rw [List.take_append_eq_append_take, List.take_of_length_le (le_of_lt hxw)]
    · rw [hstep, ih2, hidx]
      simp only [itFlatten, List.nil_append]
      rw [List.drop_append_eq_append_drop, List.drop_eq_nil_of_le (le_of_lt hxw),
        List.nil_append]
  · -- blob nonempty, iterator alive, loop stops
    intro out h l hb tb want out2 h2
    have hw : want = size - out.length := rfl
    have ho2 : out2 = out ++ (hb :: tb).take want := rfl
    rw [ho2, hw] at h2
    have hlen2 : (out ++ (hb :: tb).take (size - out.length)).length
        = out.length + min (size - out.length) (hb :: tb).length := by simp
    have h0 : size - out.length - (hb :: tb).length = 0 := by omega
    have hstep : crNextGo size out (hb :: tb) (some l)
        = (out ++ (hb :: tb).take (size - out.length),
           (hb :: tb).drop (size - out.length), some l) := by
      rw [crNextGo.eq_def]
      simp only [dif_pos h]
      rw [if_neg h2]
    rw [hstep]
    constructor
    · simp only [itFlatten]
      rw [List.take_append_eq_append_take, h0, List.take_zero, List.append_nil]
    · simp only [itFlatten]
      rw [List.drop_append_eq_append_drop, h0, List.drop_zero]
  · -- while condition fails at entry
    intro out blob it h
    have hstep : crNextGo size out blob it = (out, blob, it) := by
      rw [crNextGo.eq_def]
      simp [h]
    rw [hstep]
    have h0 : size - out.length = 0 := by omega
    rw [h0]
    simp

/-- `_ChunkReader.next(size)` returns the first `size` pending bytes, leaves
the rest pending, and advances `ofs` by the number of bytes returned. -/
theorem ChunkReader.next_spec (cr : ChunkReader) (size : Nat) :
    (ChunkReader.next cr size).1 = (crRem cr).take size ∧
    crRem (ChunkReader.next cr size).2 = (crRem cr).drop size ∧
    (ChunkReader.next cr size).2.ofs = cr.ofs + (ChunkReader.next cr size).1.length := by
  obtain ⟨h1, h2⟩ := crNextGo_spec size [] cr.blob cr.it
  simp only [List.length_nil, Nat.sub_zero, List.nil_append] at h1 h2
  exact ⟨h1, h2, rfl⟩

/-- State of `_FileReader`: the file's object, `self.size`, `self.isdir`
(CHUNKED), the read offset, and the cached `_ChunkReader` (`None` initially). -/
structure FileReader where
  chunk : Chunk
  size : Nat
  isdir : Bool
  ofs : Nat
  reader : Option ChunkReader

/-- `_FileReader.__init__(hash, size, isdir)`. -/
def FileReader.init (c : Chunk) (size : Nat) (isdir : Bool) : FileReader :=
  { chunk := c, size := size, isdir := isdir, ofs := 0, reader := none }

/-- `_FileReader.seek(ofs)`: clamp the new offset into `[0, size]`.  The
argument is an `Int` because the source accepts negative offsets. -/
def FileReader.seek (fr : FileReader) (ofs : Int) : FileReader :=
  if ofs > (fr.size : Int) then { fr with ofs := fr.size }
  else if ofs < 0 then { fr with ofs := 0 }
  else { fr with ofs := ofs.toNat }

/-- `_FileReader.tell()`. -/
def FileReader.tell (fr : FileReader) : Nat := fr.ofs

/-- `_FileReader.read(count)`: a negative count means `size - ofs`; the
`_ChunkReader` is recreated at the current offset unless the cached one is
positioned there; then `next(count)` and `self.ofs += len(buf)`. -/
def FileReader.read (fr : FileReader) (count : Int) : List Nat × FileReader :=
  let cnt : Nat := if count < 0 then fr.size - fr.ofs else count.toNat
  let rd : ChunkReader :=
    match fr.reader with
    | some r => if r.ofs = fr.ofs then r else ChunkReader.init fr.chunk fr.isdir fr.ofs
    | none => ChunkReader.init fr.chunk fr.isdir fr.ofs
  let br := ChunkReader.next rd cnt
  (br.1, { fr with reader := some br.2, ofs := fr.ofs + br.1.length })

/-- A cached `_ChunkReader`, if any, holds exactly the file bytes from its
own offset on.  Freshly created and sequentially used readers satisfy this. -/
def readerOK (fr : FileReader) : Prop :=
  ∀ r, fr.reader = some r → crRem r = (content fr.chunk).drop r.ofs

/-- A fresh `_ChunkReader` at `so` holds exactly the content from `so` on,
for a well-formed chunked tree (`isdir`) or a plain blob. -/
theorem crRem_init (c : Chunk) (isdir : Bool) (so : Nat)
    (h : isdir = true → chunkWF c = true ∧ ∃ es, c = .tree es) :
    crRem (ChunkReader.init c isdir so) = (content c).drop so := by
  rcases isdir with _ | _
  · simp [ChunkReader.init, crRem, itFlatten]
  · obtain ⟨hwf, es, rfl⟩ := h rfl
    rw [chunkWF_tree] at hwf
    simp only [ChunkReader.init, if_pos, crRem, itFlatten, List.nil_append, treeEntries]
    rw [chunkiter_flatten es so hwf.2, content_tree]

theorem ChunkReader.init_ofs (c : Chunk) (isdir : Bool) (so : Nat) :
    (ChunkReader.init c isdir so).ofs = so := by
  unfold ChunkReader.init
  split <;> rfl

/-- `_FileReader.read(count)` with a nonnegative `count` at offset `ofs`,
when `size` is the true content length: returns exactly the content slice
`[ofs, ofs+count)` (shorter at end of file), of length `min count (size -
ofs)`, and advances the offset by the number of bytes returned, preserving
the cached-reader consistency. -/
theorem FileReader.read_spec (fr : FileReader) (count : Int)
    (hsz : fr.size = (content fr.chunk).length)
    (hdir : fr.isdir = true → chunkWF fr.chunk = true ∧ ∃ es, fr.chunk = .tree es)
    (hro : readerOK fr) (hofs : fr.ofs ≤ fr.size) (hcnt : 0 ≤ count) :
    (fr.read count).1 = ((content fr.chunk).drop fr.ofs).take count.toNat ∧
    (fr.read count).1.length = min count.toNat (fr.size - fr.ofs) ∧
    (fr.read count).2.ofs = fr.ofs + (fr.read count).1.length ∧
    readerOK (fr.read count).2 := by
  have hcnt0 : (if count < 0 then fr.size - fr.ofs else count.toNat) = count.toNat := by
    rw [if_neg (by omega)]
  have hrd : crRem (match fr.reader with
        | some r => if r.ofs = fr.ofs then r else ChunkReader.init fr.chunk fr.isdir fr.ofs
        | none => ChunkReader.init fr.chunk fr.isdir fr.ofs)
        = (content fr.chunk).drop fr.ofs ∧
      (match fr.reader with
        | some r => if r.ofs = fr.ofs then r else ChunkReader.init fr.chunk fr.isdir fr.ofs
        | none => ChunkReader.init fr.chunk fr.isdir fr.ofs).ofs = fr.ofs := by
    rcases hfrr : fr.reader with _ | r
    · exact ⟨crRem_init fr.chunk fr.isdir fr.ofs hdir,
        ChunkReader.init_ofs fr.chunk fr.isdir fr.ofs⟩
    · by_cases hofs2 : r.ofs = fr.ofs
      · show crRem (if r.ofs = fr.ofs then r else _) = _ ∧
          (if r.ofs = fr.ofs then r else _).ofs = fr.ofs
        rw [if_pos hofs2, hro r hfrr, hofs2]
        exact ⟨rfl, rfl⟩
      · show crRem (if r.ofs = fr.ofs then r else _) = _ ∧
          (if r.ofs = fr.ofs then r else _).ofs = fr.ofs
        rw [if_neg hofs2]
        exact ⟨crRem_init fr.chunk fr.isdir fr.ofs hdir,
          ChunkReader.init_ofs fr.chunk fr.isdir fr.ofs⟩
  obtain ⟨hrem, hrdofs⟩ := hrd
  obtain ⟨n1, n2, n3⟩ := ChunkReader.next_spec (match fr.reader with
      | some r => if r.ofs = fr.ofs then r else ChunkReader.init fr.chunk fr.isdir fr.ofs
      | none => ChunkReader.init fr.chunk fr.isdir fr.ofs) count.toNat
  rw [hrem] at n1 n2
  rw [hrdofs] at n3
  have hbuf : (fr.read count).1
      = ((content fr.chunk).drop fr.ofs).take count.toNat := by
    show (ChunkReader.next _ (if count < 0 then fr.size - fr.ofs else count.toNat)).1 = _
    rw [hcnt0]
    exact n1
  have hlen : (fr.read count).1.length = min count.toNat (fr.size - fr.ofs) := by
    rw [hbuf]
    simp [hsz]
  refine ⟨hbuf, hlen, rfl, ?_⟩
  intro r2 hr2
  have hr2eq : r2 = (ChunkReader.next (match fr.reader with
      | some r => if r.ofs = fr.ofs then r else ChunkReader.init fr.chunk fr.isdir fr.ofs
      | none => ChunkReader.init fr.chunk fr.isdir fr.ofs)
      (if count < 0 then fr.size - fr.ofs else count.toNat)).2 := by
    exact (Option.some_injective _ hr2).symm
  rw [hcnt0] at hr2eq
  subst hr2eq
  show crRem _ = (content fr.chunk).drop _
  rw [n2, n3, List.drop_drop, n1]
  have hlen2 : (((content fr.chunk).drop fr.ofs).take count.toNat).length
      = min count.toNat ((content fr.chunk).length - fr.ofs) := by simp
  rcases Nat.le_total count.toNat ((content fr.chunk).length - fr.ofs) with hle | hge
  · have he : fr.ofs + (((content fr.chunk).drop fr.ofs).take count.toNat).length
        = fr.ofs + count.toNat := by omega
    rw [he]
  · have h1 : (content fr.chunk).length ≤ fr.ofs + count.toNat := by omega
    have h2 : (content fr.chunk).length
        ≤ fr.ofs + (((content fr.chunk).drop fr.ofs).take count.toNat).length := by omega
    rw [List.drop_eq_nil_of_le h1, List.drop_eq_nil_of_le h2]

/-- `_FileReader.seek(0)` just zeroes the offset. -/
theorem FileReader.seek_zero (fr : FileReader) : fr.seek 0 = { fr with ofs := 0 } := by
  unfold FileReader.seek
  rw [if_neg (by omega), if_neg (by omega)]
  rfl

/-- `_FileReader.seek(a)` for a natural `a ≤ size` sets the offset to `a`. -/
theorem FileReader.seek_nat (fr : FileReader) (a : Nat) (ha : a ≤ fr.size) :
    fr.seek (a : Int) = { fr with ofs := a } := by
  unfold FileReader.seek
  rw [if_neg (by omega), if_neg (by omega)]
  simp

/-- `_FileReader.seek` clamps the offset into `[0, size]` and changes nothing
else. -/
theorem FileReader.seek_spec (fr : FileReader) (ofs : Int) :
    ((fr.seek ofs).ofs : Int) = max 0 (min ofs (fr.size : Int)) ∧
    (fr.seek ofs).chunk = fr.chunk ∧ (fr.seek ofs).size = fr.size ∧
    (fr.seek ofs).isdir = fr.isdir ∧ (fr.seek ofs).reader = fr.reader := by
  unfold FileReader.seek
  split_ifs with h1 h2 <;> refine ⟨?_, rfl, rfl, rfl, rfl⟩ <;> simp <;> omega

/-- A `File` node's reading-relevant state: its object, whether its bupmode is
`BUP_CHUNKED`, the `_cached_size`, and the cached `_filereader`. -/
structure File where
  chunk : Chunk
  chunked : Bool
  cachedSize : Option Nat
  filereader : Option FileReader

/-- `File.size()`: cached after the first call; `_total_size` for a CHUNKED
file, `_chunk_len` otherwise. -/
def File.sizeFn (f : File) : Nat × File :=
  match f.cachedSize with
  | some s => (s, f)
  | none =>
      let s := if f.chunked then totalSize (treeEntries f.chunk) else chunkLen f.chunk
      (s, { f with cachedSize := some s })

/-- `File.open()`: create the `_FileReader` (with `self.size()` and
`bupmode == BUP_CHUNKED`) only if absent, then always `seek(0)` and return
the cached reader. -/
def File.open (f : File) : FileReader × File :=
  match f.filereader with
  | some r =>
      let r2 := r.seek 0
      (r2, { f with filereader := some r2 })
  | none =>
      let p := File.sizeFn f
      let r := FileReader.init f.chunk p.1 f.chunked
      let r2 := r.seek 0
      (r2, { p.2 with filereader := some r2 })

/-- Claim C1: for a CHUNKED file with split tree `es` and `0 ≤ a ≤ b ≤
size`, opening the file and performing `seek(a); read(b-a)` yields exactly
the byte slice `[a, b)` of the full content (the concatenation of the leaf
blobs in offset order), including across chunk boundaries. -/
theorem claim_C1_chunked_seek_read (es : List (Nat × Chunk)) (a b : Nat)
    (hwf : chunkWF (.tree es) = true) (hab : a ≤ b) (hbs : b ≤ totalSize es) :
    ((((File.open { chunk := .tree es, chunked := true, cachedSize := none,
                    filereader := none }).1).seek (a : Int)).read
        ((b : Int) - (a : Int))).1
      = ((contentList es).take b).drop a := by
  obtain ⟨hne, hwfe⟩ := chunkWF_tree.mp hwf
  have hlen : totalSize es = (contentList es).length := totalSize_eq es hwfe hne
  have hopen : (File.open { chunk := .tree es, chunked := true, cachedSize := none,
                            filereader := none }).1
      = FileReader.init (.tree es) (totalSize es) true := by
    show (FileReader.init (.tree es) (totalSize (treeEntries (.tree es))) true).seek 0 = _
    rw [FileReader.seek_zero]
    rfl
  rw [hopen]
  have hseek : (FileReader.init (.tree es) (totalSize es) true).seek (a : Int)
      = { chunk := .tree es, size := totalSize es, isdir := true, ofs := a,
          reader := none } := by
    rw [FileReader.seek_nat _ _ (le_trans hab hbs)]
    rfl
  rw [hseek]
  obtain ⟨r1, _, _, _⟩ := FileReader.read_spec
    { chunk := .tree es, size := totalSize es, isdir := true, ofs := a, reader := none }
    ((b : Int) - (a : Int))
    (by simpa using hlen)
    (by intro _; exact ⟨hwf, es, rfl⟩)
    (by intro r hr; simp at hr)
    (by simpa using le_trans hab hbs)
    (by omega)
  rw [r1]
  have htn : ((b : Int) - (a : Int)).toNat = b - a := by omega
  rw [htn]
  show ((content (.tree es)).drop a).take (b - a) = _
  rw [content_tree, List.drop_take]

/-- A concrete split tree: 7 bytes in three leaf blobs, the last two under a
sub-tree, with chunk boundaries at offsets 2 and 5. -/
def exEntries : List (Nat × Chunk) :=
  [(0, .blob [10, 11]), (2, .tree [(0, .blob [12, 13, 14]), (3, .blob [15, 16])])]

theorem claim_C1_witness :
    chunkWF (.tree exEntries) = true ∧ 1 ≤ 6 ∧ 6 ≤ totalSize exEntries ∧
    ((((File.open { chunk := .tree exEntries, chunked := true, cachedSize := none,
                    filereader := none }).1).seek ((1 : Nat) : Int)).read
        ((6 : Int) - ((1 : Nat) : Int))).1
      = ((contentList exEntries).take 6).drop 1 :=
  ⟨by simp [exEntries, chunkWF, entriesWF, content, contentList],
   by omega,
   by simp [exEntries, totalSize, lastChunkInfo],
   claim_C1_chunked_seek_read exEntries 1 6
     (by simp [exEntries, chunkWF, entriesWF, content, contentList])
     (by omega)
     (by simp [exEntries, totalSize, lastChunkInfo])⟩

/-- Claim C7: `seek(ofs)` sets the position to `min (max ofs 0) size` —
clamped, never an error — and `read(count)` at position `p` returns at most
`count` bytes and exactly `min count (size - p)` bytes of the file, advancing
the position by the number of bytes returned; reads at or past end of file
return zero bytes rather than raising. -/
theorem claim_C7_seek_clamp_read_count :
    (∀ (fr : FileReader) (ofs : Int),
      ((fr.seek ofs).ofs : Int) = max 0 (min ofs (fr.size : Int))) ∧
    (∀ (fr : FileReader) (count : Int),
      fr.size = (content fr.chunk).length →
      (fr.isdir = true → chunkWF fr.chunk = true ∧ ∃ es, fr.chunk = .tree es) →
      readerOK fr → fr.ofs ≤ fr.size → 0 ≤ count →
      (fr.read count).1.length = min count.toNat (fr.size - fr.ofs) ∧
      (fr.read count).1.length ≤ count.toNat ∧
      (fr.read count).2.ofs = fr.ofs + (fr.read count).1.length ∧
      (fr.size ≤ fr.ofs → (fr.read count).1 = [])) := by
  constructor
  · intro fr ofs
    exact (FileReader.seek_spec fr ofs).1
  · intro fr count hsz hdir hro hofs hcnt
    obtain ⟨r1, r2, r3, _⟩ := FileReader.read_spec fr count hsz hdir hro hofs hcnt
    refine ⟨r2, ?_, r3, ?_⟩
    · rw [r2]
      omega
    · intro hend
      have h0 : fr.size - fr.ofs = 0 := by omega
      have := r2
      rw [h0] at this
      simp only [Nat.min_zero] at this
      exact List.length_eq_zero.mp this

/-- A concrete plain (non-chunked) reader over 3 bytes, at offset 0. -/
def frEx : FileReader :=
  { chunk := .blob [20, 21, 22], size := 3, isdir := false, ofs := 0, reader := none }

theorem claim_C7_witness :
    (frEx.size = (content frEx.chunk).length ∧ frEx.ofs ≤ frEx.size ∧ 0 ≤ (2 : Int)) ∧
    ((frEx.seek (-5)).ofs : Int) = max 0 (min (-5) (frEx.size : Int)) ∧
    (frEx.read 2).1.length = min (2 : Int).toNat (frEx.size - frEx.ofs) :=
  ⟨⟨by simp [frEx, content_blob], by decide, by decide⟩,
   claim_C7_seek_clamp_read_count.1 frEx (-5),
   (claim_C7_seek_clamp_read_count.2 frEx 2
     (by simp [frEx, content_blob])
     (by intro h; simp [frEx] at h)
     (by intro r hr; simp [frEx] at hr)
     (by decide)
     (by decide)).1⟩

/-- Claim C10: `File.open()` always returns a reader positioned at 0, and on
a file with a cached `_FileReader` it returns that same reader object rewound
to 0 (all other fields unchanged), re-caching it — so a second `open()`
resets the read position of the reader obtained from an earlier `open()`. -/
theorem claim_C10_open_cached_rewound :
    (∀ f : File, ((File.open f).1).tell = 0) ∧
    (∀ (f : File) (r : FileReader), f.filereader = some r →
      File.open f = ({ r with ofs := 0 }, { f with filereader := some { r with ofs := 0 } })) := by
  constructor
  · intro f
    unfold File.open
    rcases hr : f.filereader with _ | r <;>
      simp [FileReader.seek_zero, FileReader.tell]
  · intro f r hr
    unfold File.open
    rw [hr]
    simp [FileReader.seek_zero]

/-- A `File` whose cached reader sits mid-file at offset 2. -/
def fEx10 : File :=
  { chunk := .blob [20, 21, 22], chunked := false, cachedSize := some 3,
    filereader := some { chunk := .blob [20, 21, 22], size := 3, isdir := false,
                         ofs := 2, reader := none } }

theorem claim_C10_witness :
    fEx10.filereader = some { chunk := .blob [20, 21, 22], size := 3, isdir := false,
                              ofs := 2, reader := none } ∧
    ((File.open fEx10).1).tell = 0 ∧
    File.open fEx10
      = ({ chunk := .blob [20, 21, 22], size := 3, isdir := false, ofs := 0,
           reader := none },
         { fEx10 with filereader := some { chunk := .blob [20, 21, 22], size := 3,
                                           isdir := false, ofs := 0, reader := none } }) :=
  ⟨rfl,
   claim_C10_open_cached_rewound.1 fEx10,
   claim_C10_open_cached_rewound.2 fEx10
     { chunk := .blob [20, 21, 22], size := 3, isdir := false, ofs := 2, reader := none }
     rfl⟩

/-!
Garbage collection (`cmd/bloom-gc-cmd.py`).  Hashes are opaque `Nat`s; the
bloom live-set is an abstract membership predicate (`live_objects.exists`);
pack indices are hash lists; the `PackWriter`'s internal size-based rollover
is an external oracle `roll` telling, for each total write count, whether the
writer finalizes a pack after that write (firing `on_pack_finish`).
-/

/-- What `sweep` decides for one pack (the three branches of its loop body). -/
inductive PackFate where
  | delete
  | keep
  | rewrite (survivors : List Nat)
deriving DecidableEq

/-- The per-pack policy of `sweep`: `idx_live_count` is the number of index
entries the bloom holds; zero means delete; `live_frac > (100 - threshold) /
100.0` (exact rational arithmetic for the source's float comparison) means
keep; otherwise the live entries, in index order, are rewritten. -/
def sweepDecision (idx : List Nat) (live : Nat → Bool) (threshold : Nat) : PackFate :=
  let idxLiveCount := (idx.filter live).length
  if idxLiveCount = 0 then .delete
  else if (idxLiveCount : ℚ) / (idx.length : ℚ) > ((100 : ℚ) - (threshold : ℚ)) / 100 then
    .keep
  else .rewrite (idx.filter live)

/-- Observable events of `sweep`, in order. -/
inductive Ev where
  | write (pack : Nat) (obj : Nat)
  | finish
  | unlink (pack : Nat) (idxFile : Bool)
  | close

/-- Mutable state of `sweep`: `ns.stale_files` (pack name and whether the
`.idx` file), the writer's total write count (driving the rollover oracle),
and whether the writer holds an unfinalized pack with data. -/
structure SweepSt where
  stale : List (Nat × Bool)
  wcount : Nat
  pending : Bool

/-- Events of `remove_stale_files`: unlink each recorded file, in order. -/
def staleUnlinks (stale : List (Nat × Bool)) : List Ev :=
  stale.map (fun f => Ev.unlink f.1 f.2)

/-- One `writer.write(...)`: if the writer rolls over after this write, the
`on_pack_finish` callback (`remove_stale_files`) runs: the new pack is
finalized, then every stale file is unlinked and the list cleared. -/
def writeObj (roll : Nat → Bool) (st : SweepSt) (p o : Nat) : List Ev × SweepSt :=
  let wc := st.wcount + 1
  if roll wc then
    ([Ev.write p o, Ev.finish] ++ staleUnlinks st.stale,
     { stale := [], wcount := wc, pending := false })
  else
    ([Ev.write p o], { stale := st.stale, wcount := wc, pending := true })

/-- The rewrite loop of `sweep`: write each surviving object in order. -/
def writeObjs (roll : Nat → Bool) (st : SweepSt) (p : Nat) :
    List Nat → List Ev × SweepSt
  | [] => ([], st)
  | o :: os =>
      let r1 := writeObj roll st p o
      let r2 := writeObjs roll r1.2 p os
      (r1.1 ++ r2.1, r2.2)

/-- One iteration of `sweep`'s pack loop: apply the policy; deletion and
rewrite append the pack's `.idx` then `.pack` to the stale list (after the
rewrite's writes); keeping touches nothing. -/
def sweepPack (roll : Nat → Bool) (live : Nat → Bool) (threshold : Nat)
    (st : SweepSt) (pname : Nat) (idx : List Nat) : List Ev × SweepSt :=
  match sweepDecision idx live threshold with
  | .delete => ([], { st with stale := st.stale ++ [(pname, true), (pname, false)] })
  | .keep => ([], st)
  | .rewrite survivors =>
      let r := writeObjs roll st pname survivors
      (r.1, { r.2 with stale := r.2.stale ++ [(pname, true), (pname, false)] })

/-- The pack loop of `sweep` over all packs (name, index) in directory order. -/
def sweepPacks (roll : Nat → Bool) (live : Nat → Bool) (threshold : Nat)
    (st : SweepSt) : List (Nat × List Nat) → List Ev × SweepSt
  | [] => ([], st)
  | (pname, idx) :: ps =>
      let r1 := sweepPack roll live threshold st pname idx
      let r2 := sweepPacks roll live threshold r1.2 ps
      (r1.1 ++ r2.1, r2.2)

/-- The tail of `sweep`: `writer.close()` — which finalizes a last pack and
fires `on_pack_finish` exactly when data was written since the last finish —
followed by `remove_stale_files(None)` for the case nothing was written. -/
def sweepClose (st : SweepSt) : List Ev :=
  if st.pending then
    [Ev.finish] ++ staleUnlinks st.stale ++ [Ev.close]
  else
    [Ev.close] ++ staleUnlinks st.stale

/-- The full event trace of `sweep`. -/
def sweepTrace (roll : Nat → Bool) (live : Nat → Bool) (threshold : Nat)
    (packs : List (Nat × List Nat)) : List Ev :=
  let r := sweepPacks roll live threshold { stale := [], wcount := 0, pending := false } packs
  r.1 ++ sweepClose r.2

/-- Scan for claim C5's first part: state `(ok, licensed, closed)`.  An
`unlink` is admissible only right after a `finish` (with only other unlinks
between) or once the writer has been closed. -/
def ulStep : Bool × Bool × Bool → Ev → Bool × Bool × Bool
  | (ok, _, c), .finish => (ok, true, c)
  | (ok, lic, _), .close => (ok, lic, true)
  | (ok, lic, c), .unlink _ _ => (ok && (lic || c), lic, c)
  | (ok, _, c), .write _ _ => (ok, false, c)

/-- Scan for claim C5's second part: state `(ok, pend)` where `pend` holds
the packs some object of which was written since the last pack finalization.
An `unlink` of pack `p` is admissible only if no object of `p` is sitting in
a not-yet-finalized pack. -/
def duStep : Bool × List Nat → Ev → Bool × List Nat
  | (ok, pend), .write p _ => (ok, p :: pend)
  | (ok, _), .finish => (ok, [])
  | (ok, pend), .close => (ok, pend)
  | (ok, pend), .unlink p _ => (ok && !pend.contains p, pend)

theorem ulScan_staleUnlinks (stale : List (Nat × Bool)) (ok c : Bool) :
    (staleUnlinks stale).foldl ulStep (ok, true, c) = (ok, true, c) := by
  induction stale with
  | nil => rfl
  | cons f fs ih => simp [staleUnlinks, ulStep] at ih ⊢; exact ih

theorem ulScan_staleUnlinks_closed (stale : List (Nat × Bool)) (ok lic : Bool) :
    (staleUnlinks stale).foldl ulStep (ok, lic, true) = (ok, lic, true) := by
  induction stale with
  | nil => rfl
  | cons f fs ih => simp [staleUnlinks, ulStep] at ih ⊢; exact ih

theorem duScan_staleUnlinks (stale : List (Nat × Bool)) (ok : Bool) :
    (staleUnlinks stale).foldl duStep (ok, []) = (ok, []) := by
  induction stale with
  | nil => rfl
  | cons f fs ih => simp [staleUnlinks, duStep] at ih ⊢; exact ih

theorem writeObj_roll (roll : Nat → Bool) (st : SweepSt) (p o : Nat)
    (hr : roll (st.wcount + 1) = true) :
    writeObj roll st p o = ([Ev.write p o, Ev.finish] ++ staleUnlinks st.stale,
      { stale := [], wcount := st.wcount + 1, pending := false }) := by
  unfold writeObj
  rw [if_pos hr]

theorem writeObj_noroll (roll : Nat → Bool) (st : SweepSt) (p o : Nat)
    (hr : roll (st.wcount + 1) = false) :
    writeObj roll st p o
      = ([Ev.write p o], { stale := st.stale, wcount := st.wcount + 1, pending := true }) := by
  unfold writeObj
  rw [if_neg (by simp [hr])]

theorem writeObjs_cons (roll : Nat → Bool) (st : SweepSt) (p o : Nat) (os : List Nat) :
    writeObjs roll st p (o :: os)
      = ((writeObj roll st p o).1 ++ (writeObjs roll (writeObj roll st p o).2 p os).1,
         (writeObjs roll (writeObj roll st p o).2 p os).2) := rfl

theorem ulScan_writeObjs (roll : Nat → Bool) (p : Nat) : ∀ (os : List Nat) (st : SweepSt)
    (ok lic : Bool), ∃ lic2,
    (((writeObjs roll st p os).1).foldl ulStep (ok, lic, false)) = (ok, lic2, false) := by
  intro os
  induction os with
  | nil => intro st ok lic; exact ⟨lic, rfl⟩
  | cons o os ih =>
    intro st ok lic
    rw [writeObjs_cons]
    by_cases hr : roll (st.wcount + 1)
    · rw [writeObj_roll roll st p o hr, List.foldl_append, List.foldl_append]
      have h1 : List.foldl ulStep (ok, lic, false) [Ev.write p o, Ev.finish]
          = (ok, true, false) := rfl
      rw [h1, ulScan_staleUnlinks]
      exact ih _ ok true
    · rw [writeObj_noroll roll st p o (by simpa using hr), List.foldl_append]
      have h1 : List.foldl ulStep (ok, lic, false) [Ev.write p o] = (ok, false, false) := rfl
      rw [h1]
      exact ih _ ok false

theorem duScan_writeObjs (roll : Nat → Bool) (p : Nat) : ∀ (os : List Nat) (st : SweepSt)
    (ok : Bool) (pend : List Nat), (st.pending = false → pend = []) →
    ∃ pend2,
      (((writeObjs roll st p os).1).foldl duStep (ok, pend)) = (ok, pend2) ∧
      ((writeObjs roll st p os).2.pending = false → pend2 = []) := by
  intro os
  induction os with
  | nil => intro st ok pend hp; exact ⟨pend, rfl, hp⟩
  | cons o os ih =>
    intro st ok pend hp
    rw [writeObjs_cons]
    by_cases hr : roll (st.wcount + 1)
    · rw [writeObj_roll roll st p o hr, List.foldl_append, List.foldl_append]
      have h1 : List.foldl duStep (ok, pend) [Ev.write p o, Ev.finish] = (ok, []) := rfl
      rw [h1, duScan_staleUnlinks]
      exact ih _ ok [] (fun _ => rfl)
    · rw [writeObj_noroll roll st p o (by simpa using hr), List.foldl_append]
      have h1 : List.foldl duStep (ok, pend) [Ev.write p o] = (ok, p :: pend) := rfl
      rw [h1]
      exact ih _ ok (p :: pend) (by intro h; simp at h)

theorem sweepPack_delete {idx : List Nat} {live : Nat → Bool} {threshold : Nat}
    (roll : Nat → Bool) (st : SweepSt) (pname : Nat)
    (hd : sweepDecision idx live threshold = .delete) :
    sweepPack roll live threshold st pname idx
      = ([], { st with stale := st.stale ++ [(pname, true), (pname, false)] }) := by
  unfold sweepPack
  rw [hd]

theorem sweepPack_keep {idx : List Nat} {live : Nat → Bool} {threshold : Nat}
    (roll : Nat → Bool) (st : SweepSt) (pname : Nat)
    (hd : sweepDecision idx live threshold = .keep) :
    sweepPack roll live threshold st pname idx = ([], st) := by
  unfold sweepPack
  rw [hd]

theorem sweepPack_rewrite {idx : List Nat} {live : Nat → Bool} {threshold : Nat}
    (roll : Nat → Bool) (st : SweepSt) (pname : Nat) {survivors : List Nat}
    (hd : sweepDecision idx live threshold = .rewrite survivors) :
    sweepPack roll live threshold st pname idx
      = ((writeObjs roll st pname survivors).1,
         { (writeObjs roll st pname survivors).2 with
            stale := (writeObjs roll st pname survivors).2.stale
              ++ [(pname, true), (pname, false)] }) := by
  unfold sweepPack
  rw [hd]

theorem ulScan_sweepPack (roll live : Nat → Bool) (threshold : Nat) (st : SweepSt)
    (pname : Nat) (idx : List Nat) (ok lic : Bool) : ∃ lic2,
    (((sweepPack roll live threshold st pname idx).1).foldl ulStep (ok, lic, false))
      = (ok, lic2, false) := by
  rcases hd : sweepDecision idx live threshold with _ | _ | survivors
  · rw [sweepPack_delete roll st pname hd]
    exact ⟨lic, rfl⟩
  · rw [sweepPack_keep roll st pname hd]
    exact ⟨lic, rfl⟩
  · rw [sweepPack_rewrite roll st pname hd]
    exact ulScan_writeObjs roll pname survivors st ok lic

theorem duScan_sweepPack (roll live : Nat → Bool) (threshold : Nat) (st : SweepSt)
    (pname : Nat) (idx : List Nat) (ok : Bool) (pend : List Nat)
    (hp : st.pending = false → pend = []) : ∃ pend2,
    (((sweepPack roll live threshold st pname idx).1).foldl duStep (ok, pend))
      = (ok, pend2) ∧
    ((sweepPack roll live threshold st pname idx).2.pending = false → pend2 = []) := by
  rcases hd : sweepDecision idx live threshold with _ | _ | survivors
  · rw [sweepPack_delete roll st pname hd]
    exact ⟨pend, rfl, fun h => hp h⟩
  · rw [sweepPack_keep roll st pname hd]
    exact ⟨pend, rfl, fun h => hp h⟩
  · rw [sweepPack_rewrite roll st pname hd]
    exact duScan_writeObjs roll pname survivors st ok pend hp

theorem ulScan_sweepPacks (roll live : Nat → Bool) (threshold : Nat) :
    ∀ (packs : List (Nat × List Nat)) (st : SweepSt) (ok lic : Bool), ∃ lic2,
    (((sweepPacks roll live threshold st packs).1).foldl ulStep (ok, lic, false))
      = (ok, lic2, false) := by
  intro packs
  induction packs with
  | nil => intro st ok lic; exact ⟨lic, rfl⟩
  | cons pr ps ih =>
    intro st ok lic
    show ∃ lic2, (((sweepPack roll live threshold st pr.1 pr.2).1
        ++ (sweepPacks roll live threshold _ ps).1).foldl ulStep (ok, lic, false))
        = (ok, lic2, false)
    rw [List.foldl_append]
    obtain ⟨lic1, h1⟩ := ulScan_sweepPack roll live threshold st pr.1 pr.2 ok lic
    rw [h1]
    exact ih _ ok lic1

theorem duScan_sweepPacks (roll live : Nat → Bool) (threshold : Nat) :
    ∀ (packs : List (Nat × List Nat)) (st : SweepSt) (ok : Bool) (pend : List Nat),
    (st.pending = false → pend = []) → ∃ pend2,
    (((sweepPacks roll live threshold st packs).1).foldl duStep (ok, pend))
      = (ok, pend2) ∧
    ((sweepPacks roll live threshold st packs).2.pending = false → pend2 = []) := by
  intro packs
  induction packs with
  | nil => intro st ok pend hp; exact ⟨pend, rfl, hp⟩
  | cons pr ps ih =>
    intro st ok pend hp
    show ∃ pend2, (((sweepPack roll live threshold st pr.1 pr.2).1
        ++ (sweepPacks roll live threshold _ ps).1).foldl duStep (ok, pend))
        = (ok, pend2) ∧ _
    rw [List.foldl_append]
    obtain ⟨pend1, h1, hc1⟩ := duScan_sweepPack roll live threshold st pr.1 pr.2 ok pend hp
    rw [h1]
    exact ih _ ok pend1 hc1

/-- Claim C5: in every `sweep` run — for any pack set, bloom set, threshold
and writer rollover behavior — a stale `.idx`/`.pack` file is unlinked only
immediately at a pack finalization (the `on_pack_finish` callback) or after
the writer has been closed at the very end (first conjunct), and never while
an object written from any source pack is still sitting in an unfinalized
pack (second conjunct): a source pack is never deleted before the new pack
holding its surviving objects is complete. -/
theorem claim_C5_stale_deletion_timing (roll live : Nat → Bool) (threshold : Nat)
    (packs : List (Nat × List Nat)) :
    (((sweepTrace roll live threshold packs).foldl ulStep (true, false, false)).1 = true) ∧
    (((sweepTrace roll live threshold packs).foldl duStep (true, [])).1 = true) := by
  unfold sweepTrace
  constructor
  · rw [List.foldl_append]
    obtain ⟨lic1, h1⟩ := ulScan_sweepPacks roll live threshold packs
      { stale := [], wcount := 0, pending := false } true false
    rw [h1]
    unfold sweepClose
    by_cases hpend : (sweepPacks roll live threshold
        { stale := [], wcount := 0, pending := false } packs).2.pending
    · rw [if_pos hpend, List.foldl_append, List.foldl_append]
      have hf : List.foldl ulStep (true, lic1, false) [Ev.finish] = (true, true, false) := rfl
      rw [hf, ulScan_staleUnlinks]
      rfl
    · rw [if_neg hpend]
      show (List.foldl ulStep (ulStep (true, lic1, false) Ev.close) _).1 = true
      have hc : ulStep (true, lic1, false) Ev.close = (true, lic1, true) := rfl
      rw [hc]
      simp only [List.append_eq, List.nil_append]
      rw [ulScan_staleUnlinks_closed]
  · rw [List.foldl_append]
    obtain ⟨pend1, h1, hc1⟩ := duScan_sweepPacks roll live threshold packs
      { stale := [], wcount := 0, pending := false } true [] (fun _ => rfl)
    rw [h1]
    unfold sweepClose
    by_cases hpend : (sweepPacks roll live threshold
        { stale := [], wcount := 0, pending := false } packs).2.pending
    · rw [if_pos hpend, List.foldl_append, List.foldl_append]
      have hf : List.foldl duStep (true, pend1) [Ev.finish] = (true, []) := rfl
      rw [hf, duScan_staleUnlinks]
      rfl
    · rw [if_neg hpend]
      obtain rfl := hc1 (by simpa using hpend)
      show (List.foldl duStep (duStep (true, ([] : List Nat)) Ev.close) (staleUnlinks _)).1
        = true
      rw [show duStep (true, ([] : List Nat)) Ev.close = (true, []) from rfl,
        duScan_staleUnlinks]

theorem sweepDecision_keep_iff (idx : List Nat) (live : Nat → Bool) (threshold : Nat)
    (hn : idx ≠ []) (ht : threshold ≤ 100) :
    ((((idx.filter live).length : ℚ) / (idx.length : ℚ)
        > ((100 : ℚ) - (threshold : ℚ)) / 100)
      ↔ 100 * (idx.filter live).length > (100 - threshold) * idx.length) := by
  have hnn : 0 < (idx.length : ℚ) := by
    have : 0 < idx.length := List.length_pos.mpr hn
    exact_mod_cast this
  rw [gt_iff_lt, div_lt_div_iff₀ (by norm_num) hnn]
  rw [show ((100 : ℚ) - (threshold : ℚ)) = ((100 - threshold : ℕ) : ℚ) by
    push_cast [ht]
    ring]
  rw [show ((100 - threshold : ℕ) : ℚ) * (idx.length : ℚ)
        = (((100 - threshold) * idx.length : ℕ) : ℚ) by push_cast; ring]
  rw [show ((idx.filter live).length : ℚ) * (100 : ℚ)
        = ((100 * (idx.filter live).length : ℕ) : ℚ) by push_cast; ring]
  exact_mod_cast Iff.rfl

/-- The per-pack decision of `sweep`, with the float comparison reduced to
integer arithmetic. -/
theorem sweepDecision_char (idx : List Nat) (live : Nat → Bool) (threshold : Nat)
    (hn : idx ≠ []) (ht : threshold ≤ 100) :
    sweepDecision idx live threshold
      = if (idx.filter live).length = 0 then .delete
        else if 100 * (idx.filter live).length > (100 - threshold) * idx.length then .keep
        else .rewrite (idx.filter live) := by
  unfold sweepDecision
  by_cases h0 : (idx.filter live).length = 0
  · rw [if_pos h0, if_pos h0]
  · rw [if_neg h0, if_neg h0]
    by_cases hq : (((idx.filter live).length : ℚ) / (idx.length : ℚ)
        > ((100 : ℚ) - (threshold : ℚ)) / 100)
    · rw [if_pos hq, if_pos ((sweepDecision_keep_iff idx live threshold hn ht).mp hq)]
    · rw [if_neg hq, if_neg (fun hc =>
        hq ((sweepDecision_keep_iff idx live threshold hn ht).mpr hc))]

/-- Claim C2: the sweeper's per-pack decision is exactly: delete when no
index entry is in the live bloom set; keep untouched when `live / n >
(100 - threshold) / 100`; otherwise rewrite exactly the live index entries,
in index order, and mark the originals stale.  In particular with 9 of 10
objects live a pack is rewritten at threshold 10 and kept at threshold 11. -/
theorem claim_C2_sweep_decision (idx : List Nat) (live : Nat → Bool) (threshold : Nat)
    (hn : idx ≠ []) (ht : threshold ≤ 100) :
    (sweepDecision idx live threshold
        = if (idx.filter live).length = 0 then .delete
          else if 100 * (idx.filter live).length > (100 - threshold) * idx.length then
            .keep
          else .rewrite (idx.filter live)) ∧
    sweepDecision (List.range 10) (fun o => o < 9) 10
      = .rewrite ((List.range 10).filter (fun o => o < 9)) ∧
    sweepDecision (List.range 10) (fun o => o < 9) 11 = .keep := by
  refine ⟨sweepDecision_char idx live threshold hn ht, ?_, ?_⟩
  · rw [sweepDecision_char (List.range 10) (fun o => o < 9) 10 (by decide) (by decide)]
    decide
  · rw [sweepDecision_char (List.range 10) (fun o => o < 9) 11 (by decide) (by decide)]
    decide

theorem claim_C2_witness :
    (([3, 7] : List Nat) ≠ [] ∧ (10 : Nat) ≤ 100) ∧
    sweepDecision [3, 7] (fun _ => false) 10
      = (if (([3, 7] : List Nat).filter (fun _ => false)).length = 0 then .delete
         else if 100 * (([3, 7] : List Nat).filter (fun _ => false)).length
             > (100 - 10) * ([3, 7] : List Nat).length then .keep
         else .rewrite (([3, 7] : List Nat).filter (fun _ => false))) :=
  ⟨⟨by decide, by decide⟩,
   (claim_C2_sweep_decision [3, 7] (fun _ => false) 10 (by decide) (by decide)).1⟩

/-!
The GC driver (main body of `cmd/bloom-gc-cmd.py`).
-/

/-- Where a GC run fails or is interrupted: nowhere, during the ref walk of
`find_live_objects` (after `bloom.create`), or at one of the steps inside
the `try` block of the main body. -/
inductive FailPoint where
  | success
  | duringWalk
  | duringMidxClear
  | duringBloomClear
  | duringReflog
  | duringSweep
deriving DecidableEq

/-- Fate of the temporary bloom-set file when the process exits. -/
structure GCSt where
  bloomCreated : Bool
  bloomClosed : Bool
  bloomUnlinked : Bool
deriving DecidableEq

/-- `find_live_objects`: `tempfile.mkstemp` and `bloom.create` make the
temporary file, then the refs are walked; an exception while walking
propagates to the caller with the file neither closed nor unlinked (there is
no handler inside the function). -/
def find_live_objects (fp : FailPoint) (st : GCSt) : Except GCSt GCSt :=
  let st1 := { st with bloomCreated := true }
  if fp = .duringWalk then .error st1 else .ok st1

/-- The main body of the GC driver: nothing happens without objects;
otherwise `find_live_objects` runs before the `try` block is entered, and
the `finally` — reached on success and on any failure inside the `try`
(midx clear, bloom clear, reflog expiry, sweep) — closes and unlinks the
bloom file.  An exception from `find_live_objects` itself propagates
directly. -/
def gcMain (existingCount : Nat) (fp : FailPoint) : GCSt :=
  let st0 : GCSt := { bloomCreated := false, bloomClosed := false, bloomUnlinked := false }
  if existingCount = 0 then st0
  else
    match find_live_objects fp st0 with
    | .error st => st
    | .ok st => { st with bloomClosed := true, bloomUnlinked := true }

/-- Counterexample to claim C3 as stated: when the run fails while the live
set is still being built (during the ref walk), the temporary bloom file has
been created but is neither closed nor unlinked at process exit. -/
theorem claim_C3_counterexample :
    ¬ ((gcMain 5 .duringWalk).bloomCreated = true →
       (gcMain 5 .duringWalk).bloomClosed = true ∧
       (gcMain 5 .duringWalk).bloomUnlinked = true) := by
  decide

/-- Claim C3 amended: on every execution path of the GC driver whose failure
point is not inside the live-set build — success, or failure and
cancellation anywhere in the `try` block (midx clear, bloom clear, reflog
expiry, sweep) — the temporary bloom file, once created, is closed and
unlinked before the process exits. -/
theorem claim_C3_bloom_scoped (existingCount : Nat) (fp : FailPoint)
    (hfp : fp ≠ .duringWalk) (hc : (gcMain existingCount fp).bloomCreated = true) :
    (gcMain existingCount fp).bloomClosed = true ∧
    (gcMain existingCount fp).bloomUnlinked = true := by
  unfold gcMain find_live_objects at *
  by_cases hn : existingCount = 0
  · rw [if_pos hn] at hc
    simp at hc
  · rw [if_neg hn] at hc ⊢
    rw [if_neg hfp] at hc ⊢
    exact ⟨rfl, rfl⟩

theorem claim_C3_witness :
    (FailPoint.duringSweep ≠ FailPoint.duringWalk ∧
      (gcMain 5 .duringSweep).bloomCreated = true) ∧
    ((gcMain 5 .duringSweep).bloomClosed = true ∧
     (gcMain 5 .duringSweep).bloomUnlinked = true) :=
  ⟨⟨by decide, by decide⟩, claim_C3_bloom_scoped 5 .duringSweep (by decide) (by decide)⟩

/-!
VFS path resolution (`Node.lresolve` / `Node._lresolve`,
`Symlink.dereference`, `Node.top`, `Node.fs_top` in lib/bup/vfs.py).
Nodes form a graph indexed by `Nat`; resolution is evaluated with explicit
fuel (`Res.outOfFuel` plays the role of Python's `RecursionError`), and the
process-wide `_symrefs` counter is threaded through every call.
-/

/-- Kinds of VFS nodes relevant to path resolution.  `dir` covers every
non-symlink node with children (`Dir`, `RefList`, `CommitDir`, `TagDir`,
`BranchList`, ...); `commitList` is a `CommitList` (`fs_top` stops below
one); `file` is a child-less non-symlink node; `symlink` covers `Symlink`
and `FakeSymlink`, with the `readlink()` target inline. -/
inductive NodeKind where
  | dir (subs : List (String × Nat))
  | commitList (subs : List (String × Nat))
  | file
  | symlink (target : String)
deriving DecidableEq

/-- One VFS node: `self.name`, `self.parent`, and its kind with children. -/
structure FSNode where
  name : String
  parent : Option Nat
  kind : NodeKind
deriving DecidableEq

/-- A node graph, indexed by position. -/
def FSGraph := List FSNode

/-- Outcome of a resolution: a node, `NoSuchFile`, `TooManySymlinks`, an
uncaught Python error (e.g. `AttributeError` on a missing object), or fuel
exhaustion (Python's `RecursionError`). -/
inductive Res where
  | ok (n : Nat)
  | noSuchFile
  | tooManySymlinks
  | crash
  | outOfFuel
deriving DecidableEq

def getNode (g : FSGraph) (n : Nat) : Option FSNode := List.get? g n

/-- The children map `self._subs` used by `Node.sub` (empty for `File` and,
via `Node._mksubs`, for `Symlink`; `sub` on those raises `NoSuchFile`). -/
def subsOf : NodeKind → List (String × Nat)
  | .dir s => s
  | .commitList s => s
  | .file => []
  | .symlink _ => []

def isCommitList : NodeKind → Bool
  | .commitList _ => true
  | _ => false

def isSymlink : NodeKind → Bool
  | .symlink _ => true
  | _ => false

/-- `re.split(r'/+', s)` on the characters of the path: tokens between
maximal runs of `/`, with an empty token only at either end. -/
def splitRunsAux : List Char → List Char → Bool → List String
  | [], cur, _ => [String.mk cur.reverse]
  | '/' :: rest, cur, false => String.mk cur.reverse :: splitRunsAux rest [] true
  | '/' :: rest, _, true => splitRunsAux rest [] true
  | ch :: rest, cur, _ => splitRunsAux rest (ch :: cur) false

/-- `path.startswith('/')`. -/
def strStartsWithSlash (s : String) : Bool :=
  match s.data with
  | '/' :: _ => true
  | _ => false

/-- `path[1:]`. -/
def strDropOne (s : String) : String := String.mk (s.data.drop 1)

/-- The segment list of `Node.lresolve`: `re.split(r'/+', path or '.')`,
then `if not parts[-1]: parts[-1] = '.'`. -/
def lresolveParts (path : String) : List String :=
  let parts := splitRunsAux (if path = "" then "." else path).data [] false
  match parts.getLast? with
  | some "" => parts.dropLast ++ ["."]
  | _ => parts

example : lresolveParts "a//b/" = ["a", "b", "."] := by decide

example : lresolveParts "" = ["."] := by decide

example : lresolveParts "/a" = ["", "a"] := by decide

mutual

/-- `Node.top()`: follow parents to the very top. -/
def topF : Nat → FSGraph → Nat → Res
  | 0, _, _ => .outOfFuel
  | fuel + 1, g, n =>
    match getNode g n with
    | none => .crash
    | some nd =>
      match nd.parent with
      | some p => topF fuel g p
      | none => .ok n
termination_by structural fuel _ _ => fuel

/-- `Node.fs_top()`: follow parents until none is left or the parent is a
`CommitList`. -/
def fsTopF : Nat → FSGraph → Nat → Res
  | 0, _, _ => .outOfFuel
  | fuel + 1, g, n =>
    match getNode g n with
    | none => .crash
    | some nd =>
      match nd.parent with
      | none => .ok n
      | some p =>
        match getNode g p with
        | none => .crash
        | some pd => if isCommitList pd.kind then .ok n else fsTopF fuel g p
termination_by structural fuel _ _ => fuel

/-- `Node._lresolve(parts)` with `Symlink._lresolve`'s override: a symlink
dereferences itself and continues with the same parts; any other node
returns itself on no parts, skips `'.'`, goes to the parent on `'..'`
(`NoSuchFile` without one), and otherwise looks the segment up with
`sub(first)`, recursing unless it was the last segment. -/
def lresolveGoF : Nat → FSGraph → Nat → Nat → List String → Res × Nat
  | 0, _, c, _, _ => (.outOfFuel, c)
  | fuel + 1, g, c, n, parts =>
    match getNode g n with
    | none => (.crash, c)
    | some nd =>
      match nd.kind with
      | .symlink _ =>
        (match derefF fuel g c n with
         | (.ok m, c2) => lresolveGoF fuel g c2 m parts
         | (e, c2) => (e, c2))
      | k =>
        match parts with
        | [] => (.ok n, c)
        | first :: rest =>
          if first = "." then lresolveGoF fuel g c n rest
          else if first = ".." then
            (match nd.parent with
             | none => (.noSuchFile, c)
             | some p => lresolveGoF fuel g c p rest)
          else if rest.isEmpty then
            (match (subsOf k).lookup first with
             | none => (.noSuchFile, c)
             | some m => (.ok m, c))
          else
            match (subsOf k).lookup first with
            | none => (.noSuchFile, c)
            | some m => lresolveGoF fuel g c m rest
termination_by structural fuel _ _ _ _ => fuel

/-- `Symlink.dereference()`: raise `TooManySymlinks` if the process-wide
counter exceeds 100 at entry; otherwise increment it, resolve `readlink()`
against the parent with `stay_inside_fs=True` (re-raising `NoSuchFile` as
`NoSuchFile`), and always decrement on the way out (`finally`). -/
def derefF : Nat → FSGraph → Nat → Nat → Res × Nat
  | 0, _, c, _ => (.outOfFuel, c)
  | fuel + 1, g, c, n =>
    match getNode g n with
    | none => (.crash, c)
    | some nd =>
      match nd.kind with
      | .symlink target =>
        if c > 100 then (.tooManySymlinks, c)
        else
          match nd.parent with
          | none => (.crash, c)
          | some p =>
            let r := lresolveF fuel g (c + 1) p target true
            (r.1, r.2 - 1)
      | _ => (.crash, c)
termination_by structural fuel _ _ _ => fuel

/-- `Node.lresolve(path, stay_inside_fs)`: empty path returns the node; a
leading `/` restarts from `fs_top()` (when `stay_inside_fs`) or `top()` and
is stripped; the rest is split into segments and walked. -/
def lresolveF : Nat → FSGraph → Nat → Nat → String → Bool → Res × Nat
  | 0, _, c, _, _, _ => (.outOfFuel, c)
  | fuel + 1, g, c, n, path, stayInside =>
    if path = "" then (.ok n, c)
    else
      match (if strStartsWithSlash path then
               (if stayInside then fsTopF fuel g n else topF fuel g n)
             else .ok n) with
      | .ok s => lresolveGoF fuel g c s (lresolveParts
          (if strStartsWithSlash path then strDropOne path else path))
      | e => (e, c)
termination_by structural fuel _ _ _ _ _ => fuel

end

/-- A backup-like tree with two symlinks pointing at each other through
terminal path segments (`b -> c`, `c -> /a/b`), one symlink to a plain file
(`d -> e`), and the file `e`. -/
def cycleGraph : FSGraph :=
  [{ name := "/", parent := none, kind := .dir [("a", 1)] },
   { name := "a", parent := some 0,
     kind := .dir [("b", 2), ("c", 3), ("d", 4), ("e", 5)] },
   { name := "b", parent := some 1, kind := .symlink "c" },
   { name := "c", parent := some 1, kind := .symlink "/a/b" },
   { name := "d", parent := some 1, kind := .symlink "e" },
   { name := "e", parent := some 1, kind := .file }]

/-- The `_symrefs` counter returns to its pre-call value around every
resolution call: `dereference` increments and its `finally` decrements (or
it raises at entry without touching the counter), and no other operation
changes it — also when an exception or `RecursionError` propagates. -/
theorem symrefs_restored : ∀ fuel,
    (∀ g c n parts, (lresolveGoF fuel g c n parts).2 = c) ∧
    (∀ g c n, (derefF fuel g c n).2 = c) ∧
    (∀ g c n path stay, (lresolveF fuel g c n path stay).2 = c) := by
  intro fuel
  induction fuel with
  | zero => exact ⟨fun _ _ _ _ => rfl, fun _ _ _ => rfl, fun _ _ _ _ _ => rfl⟩
  | succ fuel ih =>
    obtain ⟨ihGo, ihDe, ihL⟩ := ih
    have hDe : ∀ g c n, (derefF (fuel + 1) g c n).2 = c := by
      intro g c n
      rw [derefF]
      split
      · rfl
      · split
        · split
          · rfl
          · split
            · rfl
            · simp only [ihL]
              omega
        · rfl
    have hGo : ∀ g c n parts, (lresolveGoF (fuel + 1) g c n parts).2 = c := by
      intro g c n parts
      rw [lresolveGoF]
      split
      · rfl
      · split
        · split
          · rename_i heq
            have h2 := ihDe g c n
            rw [heq] at h2
            rw [ihGo]
            exact h2
          · rename_i heq
            have h2 := ihDe g c n
            rw [heq] at h2
            exact h2
        · split
          · rfl
          · split
            · exact ihGo _ _ _ _
            · split
              · split
                · rfl
                · exact ihGo _ _ _ _
              · split
                · split
                  · rfl
                  · rfl
                · split
                  · rfl
                  · exact ihGo _ _ _ _
    refine ⟨hGo, hDe, ?_⟩
    intro g c n path stay
    rw [lresolveF]
    split
    · rfl
    · split
      · exact ihGo _ _ _ _
      · rfl

set_option maxRecDepth 200000 in
/-- Counterexample to claim C4 as stated: two symlinks pointing at each
other through terminal path segments (`b -> c`, `c -> /a/b`) produce an
unbounded chain of complete, non-nested dereferences: with a call budget of
600 frames — far more than 100 hops could need — `lresolve('.')` on `b` is
still running (Python: `RecursionError`), and `TooManySymlinks` is never
raised. -/
theorem claim_C4_counterexample :
    (lresolveF 600 cycleGraph 0 2 "." true).1 = Res.outOfFuel ∧
    ¬ (lresolveF 600 cycleGraph 0 2 "." true).1 = Res.tooManySymlinks := by
  decide

/-- Claim C4 amended: `Symlink.dereference()` raises `TooManySymlinks`
whenever the process-wide symlink-depth counter exceeds 100 at entry,
leaving the counter untouched, so strictly nested dereference chains
terminate; and on every exit path (normal return, `NoSuchFile`,
`TooManySymlinks`, even stack exhaustion) the counter returns to its
pre-call value.  However, two symlinks pointing at each other in terminal
positions are resolved by non-nested dereferences — the counter never
exceeds 1 — so that resolution recurses until the interpreter stack is
exhausted instead of raising `TooManySymlinks` (see the counterexample). -/
theorem claim_C4_deref_cap_and_counter :
    (∀ (fuel : Nat) (g : FSGraph) (c n : Nat) (nd : FSNode) (target : String),
      getNode g n = some nd → nd.kind = .symlink target → 100 < c →
      derefF (fuel + 1) g c n = (.tooManySymlinks, c)) ∧
    (∀ (fuel : Nat) (g : FSGraph) (c n : Nat), (derefF fuel g c n).2 = c) := by
  constructor
  · intro fuel g c n nd target hnd hk hc
    simp only [derefF, hnd, hk]
    rw [if_pos hc]
  · intro fuel g c n
    exact (symrefs_restored fuel).2.1 g c n

theorem claim_C4_witness :
    (getNode cycleGraph 2 = some { name := "b", parent := some 1, kind := .symlink "c" } ∧
      (100 : Nat) < 101) ∧
    derefF 5 cycleGraph 101 2 = (Res.tooManySymlinks, 101) ∧
    (derefF 7 cycleGraph 0 2).2 = 0 :=
  ⟨⟨by decide, by decide⟩,
   claim_C4_deref_cap_and_counter.1 4 cycleGraph 101 2
     { name := "b", parent := some 1, kind := .symlink "c" } "c"
     (by decide) (by decide) (by decide),
   claim_C4_deref_cap_and_counter.2 7 cycleGraph 0 2⟩

set_option maxRecDepth 10000 in
/-- Counterexample to claim C6 as stated: on a `Symlink` node, `'.'` is not
a no-op — `Symlink._lresolve` dereferences first whatever the segments are —
so `lresolve('.')` on the symlink `d` (node 4) yields its target `e`
(node 5), not `d` itself. -/
theorem claim_C6_counterexample :
    (lresolveF 50 cycleGraph 0 4 "." true).1 = Res.ok 5 ∧
    ¬ (lresolveF 50 cycleGraph 0 4 "." true).1 = Res.ok 4 := by
  decide

/-- Claim C6 amended: `lresolve` returns the node itself on the empty path
(any node); on a leading `/` it restarts from `fs_top()` (if
`stay_inside_fs`) or `top()` with the slash stripped.  On a non-symlink
node, `'.'` is a no-op, `'..'` moves to the parent (`NoSuchFile` when there
is none), a non-final segment resolves through `sub(name)` and recursion —
so a symlink met in non-terminal position is dereferenced by the recursion —
and a final segment resolves through `sub(name)` without dereferencing,
even when the child is a symlink (lstat semantics).  On a `Symlink` node,
however, `_lresolve` first dereferences the node and then continues with
the same segments — so `'.'` and `'..'` are not no-ops there (see the
counterexample). -/
theorem claim_C6_lresolve_semantics :
    (∀ (fuel : Nat) (g : FSGraph) (c n : Nat) (stay : Bool),
      lresolveF (fuel + 1) g c n "" stay = (.ok n, c)) ∧
    (∀ (fuel : Nat) (g : FSGraph) (c n : Nat) (path : String) (stay : Bool),
      path ≠ "" → strStartsWithSlash path = true →
      lresolveF (fuel + 1) g c n path stay
        = match (if stay then fsTopF fuel g n else topF fuel g n) with
          | .ok s => lresolveGoF fuel g c s (lresolveParts (strDropOne path))
          | e => (e, c)) ∧
    (∀ (fuel : Nat) (g : FSGraph) (c n : Nat) (nd : FSNode) (rest : List String),
      getNode g n = some nd → isSymlink nd.kind = false →
      lresolveGoF (fuel + 1) g c n ("." :: rest) = lresolveGoF fuel g c n rest) ∧
    (∀ (fuel : Nat) (g : FSGraph) (c n : Nat) (nd : FSNode) (rest : List String),
      getNode g n = some nd → isSymlink nd.kind = false →
      lresolveGoF (fuel + 1) g c n (".." :: rest)
        = match nd.parent with
          | none => (.noSuchFile, c)
          | some p => lresolveGoF fuel g c p rest) ∧
    (∀ (fuel : Nat) (g : FSGraph) (c n : Nat) (nd : FSNode) (name : String)
        (rest : List String),
      getNode g n = some nd → isSymlink nd.kind = false →
      name ≠ "." → name ≠ ".." → rest ≠ [] →
      lresolveGoF (fuel + 1) g c n (name :: rest)
        = match (subsOf nd.kind).lookup name with
          | none => (.noSuchFile, c)
          | some m => lresolveGoF fuel g c m rest) ∧
    (∀ (fuel : Nat) (g : FSGraph) (c n : Nat) (nd : FSNode) (name : String),
      getNode g n = some nd → isSymlink nd.kind = false →
      name ≠ "." → name ≠ ".." →
      lresolveGoF (fuel + 1) g c n [name]
        = match (subsOf nd.kind).lookup name with
          | none => (.noSuchFile, c)
          | some m => (.ok m, c)) ∧
    (∀ (fuel : Nat) (g : FSGraph) (c n : Nat) (nd : FSNode) (target : String)
        (parts : List String),
      getNode g n = some nd → nd.kind = .symlink target →
      lresolveGoF (fuel + 1) g c n parts
        = match derefF fuel g c n with
          | (.ok m, c2) => lresolveGoF fuel g c2 m parts
          | (e, c2) => (e, c2)) := by
  refine ⟨?_, ?_, ?_, ?_, ?_, ?_, ?_⟩
  · intro fuel g c n stay
    rw [lresolveF]
    simp
  · intro fuel g c n path stay hne hsl
    rw [lresolveF, if_neg hne, hsl]
    simp
  · intro fuel g c n nd rest hnd hsym
    simp only [lresolveGoF, hnd]
    rcases hk : nd.kind with s | s | _ | t <;> rw [hk] at hsym <;>
      simp [isSymlink] at hsym <;> simp [hk]
  · intro fuel g c n nd rest hnd hsym
    simp only [lresolveGoF, hnd]
    rcases hk : nd.kind with s | s | _ | t <;> rw [hk] at hsym <;>
      simp [isSymlink] at hsym <;> simp [hk]
  · intro fuel g c n nd name rest hnd hsym hn1 hn2 hrest
    rcases rest with _ | ⟨r, rs⟩
    · exact absurd rfl hrest
    simp only [lresolveGoF, hnd]
    rcases hk : nd.kind with s | s | _ | t <;> rw [hk] at hsym <;>
      simp [isSymlink] at hsym <;> simp [hk, hn1, hn2]
  · intro fuel g c n nd name hnd hsym hn1 hn2
    simp only [lresolveGoF, hnd]
    rcases hk : nd.kind with s | s | _ | t <;> rw [hk] at hsym <;>
      simp [isSymlink] at hsym <;> simp [hk, hn1, hn2]
  · intro fuel g c n nd target parts hnd hk
    simp only [lresolveGoF, hnd, hk]

theorem claim_C6_witness :
    (getNode cycleGraph 1
        = some { name := "a", parent := some 0,
                 kind := .dir [("b", 2), ("c", 3), ("d", 4), ("e", 5)] } ∧
      isSymlink (NodeKind.dir [("b", 2), ("c", 3), ("d", 4), ("e", 5)]) = false ∧
      ("b" : String) ≠ "." ∧ ("b" : String) ≠ "..") ∧
    lresolveF 10 cycleGraph 0 1 "" true = (.ok 1, 0) ∧
    lresolveGoF 10 cycleGraph 0 1 ["b"]
      = match (subsOf (NodeKind.dir [("b", 2), ("c", 3), ("d", 4), ("e", 5)])).lookup "b" with
        | none => (.noSuchFile, 0)
        | some m => (.ok m, 0) :=
  ⟨⟨by decide, by decide, by decide, by decide⟩,
   claim_C6_lresolve_semantics.1 9 cycleGraph 0 1 true,
   (claim_C6_lresolve_semantics.2.2.2.2.2.1) 9 cycleGraph 0 1
     { name := "a", parent := some 0,
       kind := .dir [("b", 2), ("c", 3), ("d", 4), ("e", 5)] }
     "b" (by decide) (by decide) (by decide) (by decide)⟩

/-!
Materialization of a `Dir`'s children (`Dir._mksubs` in lib/bup/vfs.py).
`git.demangle_name` is code of the repository outside src/, so it is kept
abstract as a `(display_name, bup_mode)` function of the mangled name and
mode, as the spec describes it.
-/

/-- `git.BUP_NORMAL` / `git.BUP_CHUNKED`. -/
inductive BupMode where
  | normal
  | chunked
deriving DecidableEq

/-- `stat.S_ISDIR`: format bits equal `0o040000`. -/
def S_ISDIR (mode : Nat) : Bool := Nat.land mode 0o170000 == 0o040000

/-- `stat.S_ISLNK`: format bits equal `0o120000`. -/
def S_ISLNK (mode : Nat) : Bool := Nat.land mode 0o170000 == 0o120000

/-- `hashsplit.GIT_MODE_FILE`. -/
def GIT_MODE_FILE : Nat := 0o100644

/-- `hashsplit.GIT_MODE_TREE`. -/
def GIT_MODE_TREE : Nat := 0o040000

/-- The child node `Dir._mksubs` constructs for one decoded tree entry. -/
inductive VChild where
  | dir (mode sha : Nat)
  | symlink (sha : Nat) (bupmode : BupMode)
  | file (mode sha : Nat) (bupmode : BupMode)
deriving DecidableEq

/-- Python dict assignment on an association list: replace an existing key,
otherwise append. -/
def insertAssoc {α : Type} : List (String × α) → String → α → List (String × α)
  | [], k, v => [(k, v)]
  | (k1, v1) :: rest, k, v =>
      if k1 = k then (k, v) :: rest else (k1, v1) :: insertAssoc rest k v

/-- One iteration of the `Dir._mksubs` loop over the decoded tree entries
`(mode, mangled_name, sha)`: a literal `.bupm` becomes the hidden metadata
file `self._bupm` (a regular `File` whose bupmode is CHUNKED exactly when
the stored object is a tree) and is not added to `self._subs`; any other
entry is demangled, its mode overridden to `GIT_MODE_FILE` when CHUNKED,
and stored as a `Dir`, `Symlink` or `File` according to the effective
mode. -/
def mksubsStep (demangle : String → Nat → String × BupMode)
    (st : List (String × VChild) × Option (Nat × BupMode))
    (e : Nat × String × Nat) :
    List (String × VChild) × Option (Nat × BupMode) :=
  let mode := e.1
  let mangled := e.2.1
  let sha := e.2.2
  if mangled = ".bupm" then
    (st.1, some (sha, if S_ISDIR mode then .chunked else .normal))
  else
    let nb := demangle mangled mode
    let mode2 := if nb.2 = .chunked then GIT_MODE_FILE else mode
    let child :=
      if S_ISDIR mode2 then VChild.dir mode2 sha
      else if S_ISLNK mode2 then VChild.symlink sha nb.2
      else VChild.file mode2 sha nb.2
    (insertAssoc st.1 nb.1 child, st.2)

/-- `Dir._mksubs`: fold the loop over all entries, starting from an empty
`_subs` and no `_bupm`. -/
def mksubs (demangle : String → Nat → String × BupMode)
    (entries : List (Nat × String × Nat)) :
    List (String × VChild) × Option (Nat × BupMode) :=
  entries.foldl (mksubsStep demangle) ([], none)

theorem insertAssoc_lookup_other {α : Type} (l : List (String × α)) (k k2 : String)
    (v : α) (hne : k2 ≠ k) :
    (insertAssoc l k v).lookup k2 = l.lookup k2 := by
  induction l with
  | nil =>
    simp [insertAssoc, List.lookup, beq_false_of_ne hne]
  | cons e rest ih =>
    obtain ⟨k1, v1⟩ := e
    by_cases he : k1 = k
    · rw [show insertAssoc ((k1, v1) :: rest) k v = (k, v) :: rest by
        rw [insertAssoc, if_pos he]]
      subst he
      simp [List.lookup, beq_false_of_ne hne]
    · rw [show insertAssoc ((k1, v1) :: rest) k v = (k1, v1) :: insertAssoc rest k v by
        rw [insertAssoc, if_neg he]]
      by_cases h2 : k2 = k1
      · subst h2
        simp [List.lookup]
      · simp [List.lookup, beq_false_of_ne h2, ih]

theorem insertAssoc_lookup_self {α : Type} (l : List (String × α)) (k : String) (v : α) :
    (insertAssoc l k v).lookup k = some v := by
  induction l with
  | nil => simp [insertAssoc, List.lookup]
  | cons e rest ih =>
    obtain ⟨k1, v1⟩ := e
    by_cases he : k1 = k
    · rw [show insertAssoc ((k1, v1) :: rest) k v = (k, v) :: rest by
        rw [insertAssoc, if_pos he]]
      simp [List.lookup]
    · rw [show insertAssoc ((k1, v1) :: rest) k v = (k1, v1) :: insertAssoc rest k v by
        rw [insertAssoc, if_neg he]]
      have : k ≠ k1 := fun h => he h.symm
      simp [List.lookup, beq_false_of_ne this, ih]

theorem mksubsStep_bupm (demangle : String → Nat → String × BupMode)
    (st : List (String × VChild) × Option (Nat × BupMode)) (mode sha : Nat) :
    mksubsStep demangle st (mode, ".bupm", sha)
      = (st.1, some (sha, if S_ISDIR mode then BupMode.chunked else BupMode.normal)) := by
  simp [mksubsStep]

theorem mksubsStep_other (demangle : String → Nat → String × BupMode)
    (st : List (String × VChild) × Option (Nat × BupMode)) (mode sha : Nat)
    (mangled : String) (hm : mangled ≠ ".bupm") :
    mksubsStep demangle st (mode, mangled, sha)
      = (insertAssoc st.1 (demangle mangled mode).1
          (if S_ISDIR (if (demangle mangled mode).2 = .chunked then GIT_MODE_FILE else mode)
           then VChild.dir
             (if (demangle mangled mode).2 = .chunked then GIT_MODE_FILE else mode) sha
           else if S_ISLNK
               (if (demangle mangled mode).2 = .chunked then GIT_MODE_FILE else mode)
           then VChild.symlink sha (demangle mangled mode).2
           else VChild.file
             (if (demangle mangled mode).2 = .chunked then GIT_MODE_FILE else mode) sha
             (demangle mangled mode).2),
         st.2) := by
  simp [mksubsStep, hm]

theorem mksubs_fold_no_bupm (demangle : String → Nat → String × BupMode)
    (hd : ∀ nm mode, nm ≠ ".bupm" → (demangle nm mode).1 ≠ ".bupm") :
    ∀ (entries : List (Nat × String × Nat))
      (st : List (String × VChild) × Option (Nat × BupMode)),
      st.1.lookup ".bupm" = none →
      ((entries.foldl (mksubsStep demangle) st).1.lookup ".bupm") = none := by
  intro entries
  induction entries with
  | nil => intro st h; exact h
  | cons e rest ih =>
    intro st h
    obtain ⟨mode, mangled, sha⟩ := e
    show ((rest.foldl (mksubsStep demangle)
        (mksubsStep demangle st (mode, mangled, sha))).1.lookup ".bupm") = none
    apply ih
    by_cases hm : mangled = ".bupm"
    · subst hm
      rw [mksubsStep_bupm]
      exact h
    · rw [mksubsStep_other demangle st mode sha mangled hm]
      show ((insertAssoc st.1 (demangle mangled mode).1 _).lookup ".bupm") = none
      rw [insertAssoc_lookup_other st.1 (demangle mangled mode).1 ".bupm" _
        (Ne.symm (hd mangled mode hm))]
      exact h

/-- Claim C8: in `Dir._mksubs` an entry named `.bupm` is recorded as the
hidden metadata `File` — a regular file whose bupmode is CHUNKED exactly
when the stored object is a tree — and never appears among the children
(provided demangling never maps another entry to the name `.bupm`); every
other entry is demangled, and when its bup mode is CHUNKED the entry's
on-disk mode is overridden to regular file, so the child is constructed as
a `File`, not a `Dir`, even though the stored object is a tree. -/
theorem claim_C8_mksubs_bupm_and_chunked :
    (∀ (demangle : String → Nat → String × BupMode) (entries : List (Nat × String × Nat)),
      (∀ nm mode, nm ≠ ".bupm" → (demangle nm mode).1 ≠ ".bupm") →
      ((mksubs demangle entries).1.lookup ".bupm") = none) ∧
    (∀ (demangle : String → Nat → String × BupMode)
        (st : List (String × VChild) × Option (Nat × BupMode)) (mode sha : Nat),
      mksubsStep demangle st (mode, ".bupm", sha)
        = (st.1, some (sha, if S_ISDIR mode then BupMode.chunked else BupMode.normal))) ∧
    (∀ (demangle : String → Nat → String × BupMode)
        (st : List (String × VChild) × Option (Nat × BupMode)) (mode sha : Nat)
        (mangled name : String),
      mangled ≠ ".bupm" → demangle mangled mode = (name, .chunked) →
      mksubsStep demangle st (mode, mangled, sha)
        = (insertAssoc st.1 name (VChild.file GIT_MODE_FILE sha .chunked), st.2)) := by
  refine ⟨?_, mksubsStep_bupm, ?_⟩
  · intro demangle entries hd
    exact mksubs_fold_no_bupm demangle hd entries ([], none) rfl
  · intro demangle st mode sha mangled name hm hdm
    have h1 : S_ISDIR GIT_MODE_FILE = false := by decide
    have h2 : S_ISLNK GIT_MODE_FILE = false := by decide
    rw [mksubsStep_other demangle st mode sha mangled hm, hdm]
    simp [h1, h2]

/-- A demangler with the shape of `git.demangle_name`: strip a `.bup`
suffix as CHUNKED, a `.bupl` suffix as NORMAL, else NORMAL unchanged. -/
def demangleEx (nm : String) (_mode : Nat) : String × BupMode :=
  if nm = "big.bup" then ("big", .chunked) else (nm, .normal)

theorem claim_C8_witness :
    ((∀ nm mode, nm ≠ ".bupm" → (demangleEx nm mode).1 ≠ ".bupm") ∧
      ("big.bup" : String) ≠ ".bupm" ∧
      demangleEx "big.bup" 0o040000 = ("big", .chunked)) ∧
    ((mksubs demangleEx [(0o100644, ".bupm", 7), (0o040000, "big.bup", 8)]).1.lookup
        ".bupm") = none ∧
    mksubsStep demangleEx ([], none) (0o040000, "big.bup", 8)
      = (insertAssoc [] "big" (VChild.file GIT_MODE_FILE 8 .chunked), none) :=
  ⟨⟨by
      intro nm mode hnm
      unfold demangleEx
      by_cases h : nm = "big.bup"
      · rw [if_pos h]
        decide
      · rw [if_neg h]
        exact hnm,
    by decide, by decide⟩,
   claim_C8_mksubs_bupm_and_chunked.1 demangleEx
     [(0o100644, ".bupm", 7), (0o040000, "big.bup", 8)]
     (by
       intro nm mode hnm
       unfold demangleEx
       by_cases h : nm = "big.bup"
       · rw [if_pos h]
         decide
       · rw [if_neg h]
         exact hnm),
   claim_C8_mksubs_bupm_and_chunked.2.2 demangleEx ([], none) 0o040000 8 "big.bup" "big"
     (by decide) (by decide)⟩

/-!
`BranchList._mksubs` (lib/bup/vfs.py).  `git.rev_list` is repository code
outside src/ and is modelled from the spec: it yields the branch's commits
as `(hex hash, author time)` pairs, newest first (the source takes
`revs[0]` as `latest`).  `time.localtime` is an external C routine and is
kept abstract.
-/

/-- A `time.struct_time`-like broken-down local time. -/
structure TM where
  year : Nat
  mon : Nat
  mday : Nat
  hour : Nat
  minute : Nat
  sec : Nat
deriving DecidableEq

/-- Two-digit zero padding (`%m`, `%d`, `%H`, `%M`, `%S`). -/
def pad2 (n : Nat) : String := if n < 10 then "0" ++ toString n else toString n

/-- Four-digit zero padding (`%Y`). -/
def pad4 (n : Nat) : String :=
  if n < 10 then "000" ++ toString n
  else if n < 100 then "00" ++ toString n
  else if n < 1000 then "0" ++ toString n
  else toString n

/-- `time.strftime('%Y-%m-%d-%H%M%S', l)`. -/
def strftimeYmdHMS (t : TM) : String :=
  pad4 t.year ++ "-" ++ pad2 t.mon ++ "-" ++ pad2 t.mday ++ "-"
    ++ pad2 t.hour ++ pad2 t.minute ++ pad2 t.sec

/-- The `FakeSymlink` target `'../.commit/%s/%s' % (commithex[:2], commithex[2:])`. -/
def commitTarget (hex : String) : String :=
  "../.commit/" ++ String.mk (hex.data.take 2) ++ "/" ++ String.mk (hex.data.drop 2)

/-- `BranchList._mksubs`: one `FakeSymlink` per commit, named by the
formatted local author time and keyed into the `_subs` dict (a later commit
with the same formatted name overwrites an earlier one), then the `latest`
link to `revs[0]`.  Children are the `(name, readlink target)` pairs.  (On
an empty history the source would raise `IndexError` at `revs[0]`.) -/
def branchSubs (localtime : Int → TM) (revs : List (String × Int)) :
    List (String × String) :=
  let withDates := revs.foldl
    (fun acc cd => insertAssoc acc (strftimeYmdHMS (localtime cd.2))
      (commitTarget cd.1)) []
  match revs with
  | [] => withDates
  | latest :: _ => insertAssoc withDates "latest" (commitTarget latest.1)

theorem insertAssoc_notmem {α : Type} (l : List (String × α)) (k : String) (v : α)
    (h : k ∉ l.map Prod.fst) :
    insertAssoc l k v = l ++ [(k, v)] := by
  induction l with
  | nil => rfl
  | cons e rest ih =>
    obtain ⟨k1, v1⟩ := e
    simp only [List.map_cons, List.mem_cons, not_or] at h
    rw [show insertAssoc ((k1, v1) :: rest) k v = (k1, v1) :: insertAssoc rest k v by
      rw [insertAssoc, if_neg (fun hc => h.1 hc.symm)]]
    rw [ih h.2]
    rfl

theorem branchFold_eq (localtime : Int → TM) :
    ∀ (revs : List (String × Int)) (acc : List (String × String)),
    (∀ cd ∈ revs, strftimeYmdHMS (localtime cd.2) ∉ acc.map Prod.fst) →
    (revs.map (fun cd => strftimeYmdHMS (localtime cd.2))).Nodup →
    revs.foldl (fun acc cd => insertAssoc acc (strftimeYmdHMS (localtime cd.2))
        (commitTarget cd.1)) acc
      = acc ++ revs.map (fun cd => (strftimeYmdHMS (localtime cd.2), commitTarget cd.1)) := by
  intro revs
  induction revs with
  | nil =>
    intro acc _ _
    simp
  | cons cd rest ih =>
    intro acc hacc hnd
    simp only [List.map_cons, List.nodup_cons] at hnd
    show rest.foldl _ (insertAssoc acc (strftimeYmdHMS (localtime cd.2))
      (commitTarget cd.1)) = _
    rw [insertAssoc_notmem acc _ _ (hacc cd (List.mem_cons_self cd rest))]
    have hside : ∀ cd2 ∈ rest, strftimeYmdHMS (localtime cd2.2)
        ∉ (acc ++ [(strftimeYmdHMS (localtime cd.2), commitTarget cd.1)]).map Prod.fst := by
      intro cd2 hcd2
      simp only [List.map_append, List.map_cons, List.map_nil, List.mem_append, not_or]
      constructor
      · exact hacc cd2 (List.mem_cons_of_mem cd hcd2)
      · simp only [List.mem_singleton]
        intro hc
        apply hnd.1
        have hm : strftimeYmdHMS (localtime cd2.2)
            ∈ rest.map (fun cd => strftimeYmdHMS (localtime cd.2)) :=
          List.mem_map_of_mem _ hcd2
        rw [hc] at hm
        exact hm
    rw [ih (acc ++ [(strftimeYmdHMS (localtime cd.2), commitTarget cd.1)]) hside hnd.2]
    simp

/-- Claim C9 amended: for a branch whose commits all carry distinct
formatted local timestamps (and none formats as the literal `latest`),
`BranchList`'s children are exactly one `FakeSymlink` per commit, in
rev-list order, named `YYYY-MM-DD-HHMMSS` from the commit's author time and
targeting `../.commit/<first two hex chars>/<remaining 38>`, plus a
`latest` link targeting the newest (first-listed) commit.  When two commits
share a formatted timestamp the later-iterated entry overwrites the earlier
under that name (see the counterexample), so the claim's "one link per
commit" fails in general. -/
theorem claim_C9_branchlist_children (localtime : Int → TM)
    (revs : List (String × Int)) (hne : revs ≠ [])
    (hnodup : (revs.map (fun cd => strftimeYmdHMS (localtime cd.2))).Nodup)
    (hlat : ("latest" : String) ∉ revs.map (fun cd => strftimeYmdHMS (localtime cd.2))) :
    branchSubs localtime revs
      = revs.map (fun cd => (strftimeYmdHMS (localtime cd.2), commitTarget cd.1))
        ++ [("latest", commitTarget (revs.head hne).1)] := by
  unfold branchSubs
  rcases revs with _ | ⟨latest, rest⟩
  · exact absurd rfl hne
  rw [branchFold_eq localtime (latest :: rest) [] (by simp) hnodup]
  show insertAssoc
      ([] ++ List.map (fun cd => (strftimeYmdHMS (localtime cd.2), commitTarget cd.1))
        (latest :: rest)) "latest" (commitTarget latest.1) = _
  rw [List.nil_append]
  rw [insertAssoc_notmem _ "latest" _ (by
    simp only [List.map_append, List.map_map, List.map_cons, List.nil_append]
    simpa using hlat)]
  simp

/-- A `localtime` oracle: epoch 1700003600 is 2023-11-14 23:13:20, anything
else 2023-11-14 22:13:20 (UTC-like, one hour apart). -/
def ltEx : Int → TM := fun d =>
  if d = 1700003600 then ⟨2023, 11, 14, 23, 13, 20⟩ else ⟨2023, 11, 14, 22, 13, 20⟩

/-- Two distinct commits with the same author time. -/
def revsCollide : List (String × Int) :=
  [(String.mk (List.replicate 40 'a'), 1700000000),
   (String.mk (List.replicate 40 'b'), 1700000000)]

set_option maxHeartbeats 2000000 in
/-- Counterexample to claim C9 as stated: a branch with two commits at the
same second produces 2 children (one dated name, shared by both commits,
plus `latest`), not one `FakeSymlink` per commit plus `latest` (3). -/
theorem claim_C9_counterexample :
    (branchSubs ltEx revsCollide).length = 2 ∧ revsCollide.length + 1 = 3 := by
  decide

/-- A branch with two commits, at epochs 1700003600 (newest) and
1700000000. -/
def revsEx : List (String × Int) :=
  [(String.mk (List.replicate 40 'b'), 1700003600),
   (String.mk (List.replicate 40 'a'), 1700000000)]

set_option maxHeartbeats 2000000 in
theorem claim_C9_witness :
    (revsEx ≠ [] ∧
      (revsEx.map (fun cd => strftimeYmdHMS (ltEx cd.2))).Nodup ∧
      ("latest" : String) ∉ revsEx.map (fun cd => strftimeYmdHMS (ltEx cd.2))) ∧
    branchSubs ltEx revsEx
      = revsEx.map (fun cd => (strftimeYmdHMS (ltEx cd.2), commitTarget cd.1))
        ++ [("latest", commitTarget (revsEx.head (by decide)).1)] :=
  ⟨⟨by decide, by decide, by decide⟩,
   claim_C9_branchlist_children ltEx revsEx (by decide) (by decide) (by decide)⟩

end BupVfs